import Mathlib

/-! Verification of the Valeon TTS Studio chunking engine.

A shallow embedding of `src/lib/textProcessing` (normalizer, heading matcher,
sentence splitter, segment builder, preset and custom chunkers, stats) and of
the persisted-configuration coercion layer of the app store, together with
proofs and refutations of the specification's testable properties.

JavaScript strings are modelled as `List Char` (one entry per UTF-16 code
unit; all inputs considered here are BMP text, where a code unit is a
character).  JS `undefined`/`null` results are modelled with `Option`.
-/

set_option autoImplicit false
set_option maxRecDepth 100000

namespace Valeon

/-- The JS `\s` character class (also the set trimmed by `String.prototype.trim`):
space, tab, LF, VT, FF, CR, NBSP, and the Unicode space separators and BOM. -/
def isWs (c : Char) : Bool :=
  let n := c.toNat
  n = 0x20 || n = 0x9 || n = 0xa || n = 0xb || n = 0xc || n = 0xd ||
  n = 0xa0 || n = 0x1680 || (0x2000 ≤ n && n ≤ 0x200a) ||
  n = 0x2028 || n = 0x2029 || n = 0x202f || n = 0x205f || n = 0x3000 || n = 0xfeff

/-- JS line terminators (the characters `.` does not match in a regex). -/
def isLineTerm (c : Char) : Bool :=
  let n := c.toNat
  n = 0xa || n = 0xd || n = 0x2028 || n = 0x2029

/-- `String.prototype.trim`: drop leading and trailing whitespace. -/
def jsTrim (s : List Char) : List Char :=
  ((s.dropWhile isWs).reverse.dropWhile isWs).reverse

/-- The non-whitespace characters of a string, in order ("content" for the
coverage property). -/
def nws (s : List Char) : List Char :=
  s.filter (fun c => !isWs c)

/-- Content of a list of chunks: concatenation, whitespace ignored. -/
def nwsJoin (chunks : List (List Char)) : List Char :=
  (chunks.map nws).flatten

/-- `s.split(sep)` for a single-character separator: always returns at least
one (possibly empty) part; separators are consumed. -/
def splitOnChar (sep : Char) : List Char → List (List Char)
  | [] => [[]]
  | c :: rest =>
      if c = sep then [] :: splitOnChar sep rest
      else
        match splitOnChar sep rest with
        | [] => [[c]]
        | h :: t => (c :: h) :: t

/-- Worker for `line.replace(/[ \t]+/g, " ")`: `inRun` records whether the
previous character was part of a space/tab run already replaced. -/
def collapseRun (inRun : Bool) : List Char → List Char
  | [] => []
  | c :: rest =>
      if c = ' ' || c = '\t' then
        if inRun then collapseRun true rest else ' ' :: collapseRun true rest
      else c :: collapseRun false rest

/-- `line.replace(/[ \t]+/g, " ")`: each maximal run of spaces/tabs becomes a
single space. -/
def collapseSpaceTab (s : List Char) : List Char :=
  collapseRun false s

/-- `normalizeLine` from the source: collapse space/tab runs, then trim. -/
def normalizeLine (s : List Char) : List Char :=
  jsTrim (collapseSpaceTab s)

/-- `input.replace(/\r\n/g, "\n")`: each CRLF pair becomes a single LF
(left to right, non-overlapping). -/
def stripCRLF : List Char → List Char
  | [] => []
  | [c] => [c]
  | c :: d :: rest =>
      if c = '\r' ∧ d = '\n' then '\n' :: stripCRLF rest
      else c :: stripCRLF (d :: rest)

/-- `.replace(/\r/g, "\n")`: remaining lone CRs become LFs. -/
def replaceCR (s : List Char) : List Char :=
  s.map (fun c => if c = '\r' then '\n' else c)

/-- `normalizeText` from the source: canonicalize line endings, normalize each
line, rejoin with LF, trim the whole. -/
def normalizeText (input : List Char) : List Char :=
  let cleaned := replaceCR (stripCRLF input)
  let lines := (splitOnChar '\n' cleaned).map normalizeLine
  jsTrim (List.intercalate ['\n'] lines)

/-! ## Basic lemmas about the string primitives -/

theorem splitOnChar_ne_nil (sep : Char) (s : List Char) : splitOnChar sep s ≠ [] := by
  cases s with
  | nil => simp [splitOnChar]
  | cons c rest =>
      rw [splitOnChar]
      split
      · simp
      · split <;> simp

theorem length_dropWhile_le' {α : Type _} (p : α → Bool) (l : List α) :
    (l.dropWhile p).length ≤ l.length := by
  induction l with
  | nil => simp
  | cons a l ih =>
      by_cases h : p a
      · rw [List.dropWhile_cons_of_pos h]
        exact Nat.le_succ_of_le ih
      · rw [List.dropWhile_cons_of_neg h]

theorem dropWhile_filter_not {α : Type _} (p : α → Bool) (l : List α) :
    (l.dropWhile p).filter (fun a => !p a) = l.filter (fun a => !p a) := by
  induction l with
  | nil => rfl
  | cons a l ih =>
      by_cases h : p a
      · simp [List.dropWhile_cons, List.filter_cons, h, ih]
      · simp [List.dropWhile_cons, List.filter_cons, h]

theorem nws_jsTrim (s : List Char) : nws (jsTrim s) = nws s := by
  unfold nws jsTrim
  rw [List.filter_reverse, dropWhile_filter_not, List.filter_reverse,
    List.reverse_reverse, dropWhile_filter_not]

theorem nws_append (s t : List Char) : nws (s ++ t) = nws s ++ nws t := by
  simp [nws]

theorem jsTrim_eq_nil_of_all_ws (s : List Char) (h : ∀ c ∈ s, isWs c) :
    jsTrim s = [] := by
  unfold jsTrim
  rw [List.dropWhile_eq_nil_iff.mpr h]
  simp

theorem nws_eq_nil_of_jsTrim_eq_nil (s : List Char) (h : jsTrim s = []) :
    nws s = [] := by
  rw [← nws_jsTrim, h]; rfl

theorem jsTrim_length_le (s : List Char) : (jsTrim s).length ≤ s.length := by
  unfold jsTrim
  calc ((s.dropWhile isWs).reverse.dropWhile isWs).reverse.length
      = ((s.dropWhile isWs).reverse.dropWhile isWs).length := by
        rw [List.length_reverse]
    _ ≤ (s.dropWhile isWs).reverse.length := length_dropWhile_le' _ _
    _ = (s.dropWhile isWs).length := by rw [List.length_reverse]
    _ ≤ s.length := length_dropWhile_le' _ _

/-! ## Sentence splitter -/

/-- Terminal punctuation recognized by the sentence splitter's regex class
`[.!?]`. -/
def isPunct (c : Char) : Bool :=
  c = '.' || c = '!' || c = '?'

/-- Emit one sentence: `(body ++ punctuation).trim()`, dropped when empty. -/
def emitSentence (s : List Char) : List (List Char) :=
  let t := jsTrim s
  if t = [] then [] else [t]

/-- Worker for `splitSentences`.  The source splits on `/([.!?])\\s+/` keeping
the captured punctuation, then re-glues each body with its punctuation and
trims, dropping empties.  A boundary is a punctuation character followed by at
least one whitespace character; the whitespace run is the consumed separator.
`state = some acc` accumulates the current body; `state = none` means the
separator's whitespace run is being consumed. -/
def splitSentencesGo (state : Option (List Char)) : List Char → List (List Char)
  | [] =>
      match state with
      | none => []
      | some acc => emitSentence acc
  | c :: rest =>
      match state with
      | none =>
          if isWs c then splitSentencesGo none rest
          else if isPunct c && (match rest with | d :: _ => isWs d | [] => false) then
            emitSentence [c] ++ splitSentencesGo none rest
          else splitSentencesGo (some [c]) rest
      | some acc =>
          if isPunct c && (match rest with | d :: _ => isWs d | [] => false) then
            emitSentence (acc ++ [c]) ++ splitSentencesGo none rest
          else splitSentencesGo (some (acc ++ [c])) rest

/-- `splitSentences` from the source. -/
def splitSentences (text : List Char) : List (List Char) :=
  splitSentencesGo (some []) text


/-! ## Heading matcher

The delimiter string compiles either to a user-supplied regular expression
(`/pattern/flags` syntax) or to a list of literal prefix tokens.  A general
JS regular-expression engine is not embedded; instead every definition is
parameterized by an abstract `RegexEngine` supplying the behaviour of
`new RegExp` (compilation may fail) and of `String.prototype.match` on the
compiled pattern.  All theorems hold for every engine.  The one regex the
source itself constructs, `^#{level,6}\s+(.+)$`, is embedded concretely. -/

/-- Result of a successful JS `line.match(re)`: the whole match, capture
group 1 (`none` = undefined), and the named group `text` (`none` =
undefined). -/
structure JsMatch where
  whole : List Char
  group1 : Option (List Char)
  groupsText : Option (List Char)

/-- Abstract behaviour of `new RegExp(pattern, flags)`: `none` models a
thrown `SyntaxError`; otherwise the exec function models
`line.match(regex)`. -/
structure RegexEngine where
  compile : List Char → List Char → Option (List Char → Option JsMatch)

/-- An engine on which every regex fails to compile (used to instantiate
theorems whose inputs never reach a user regex). -/
def noRegex : RegexEngine := ⟨fun _ _ => none⟩

/-- The compiled heading matcher: tagged union of the regex and token-list
variants.  The regex variant keeps its pattern and flags (for
`regex.toString()`) alongside the exec function. -/
inductive HeadingMatcher where
  | regex (pattern flags : List Char) (exec : List Char → Option JsMatch)
  | tokens (tokens : List (List Char))

/-- `trimmed.split(",")` parts, trimmed, empties dropped. -/
def tokenList (trimmed : List Char) : List (List Char) :=
  ((splitOnChar ',' trimmed).map jsTrim).filter (· ≠ [])

/-- The `pattern` part of a `/pattern/flags` delimiter: the characters
strictly between the leading slash and the last slash. -/
def delimPattern (trimmed : List Char) : List Char :=
  (((trimmed.drop 1).reverse.dropWhile (· ≠ '/')).drop 1).reverse

/-- The `flags` part of a `/pattern/flags` delimiter: the characters after
the last slash. -/
def delimFlags (trimmed : List Char) : List Char :=
  ((trimmed.drop 1).reverse.takeWhile (· ≠ '/')).reverse

/-- `trimmed.startsWith("/") && trimmed.lastIndexOf("/") > 0`. -/
def isRegexDelim (trimmed : List Char) : Bool :=
  match trimmed with
  | '/' :: rest => rest.contains '/'
  | _ => false

/-- `parseHeadingMatcher` from the source: returns the compiled matcher (or
`none`) and the surfaced error string (or `none`). -/
def parseHeadingMatcher (E : RegexEngine) (input : List Char) :
    Option HeadingMatcher × Option (List Char) :=
  let trimmed := jsTrim input
  if trimmed = [] then (none, none)
  else if isRegexDelim trimmed then
    let pattern := delimPattern trimmed
    let flags := delimFlags trimmed
    match E.compile pattern flags with
    | some exec => (some (.regex pattern flags exec), none)
    | none => (none, some "Invalid regex delimiter.".data)
  else
    match tokenList trimmed with
    | [] => (none, none)
    | tks => (some (.tokens tks), none)

/-- Backtracking search of `\s+(.+)$` after the `#`s of `^#{level,6}\s+(.+)$`:
`\s+` greedily consumes `j` whitespace characters (largest `j` first), and
`(.+)$` requires the remaining suffix to be non-empty and free of line
terminators.  Returns the captured suffix for the greediest feasible `j`. -/
def captureSearch (rest : List Char) : Nat → Option (List Char)
  | 0 => none
  | j + 1 =>
      let t := rest.drop (j + 1)
      if t ≠ [] && t.all (fun c => !isLineTerm c) then some t
      else captureSearch rest j

/-- `matchTokenHeading` from the source.  A token of only `#`s (length
`level`) matches via `^#{level,6}\s+(.+)$` — embedded concretely via
`captureSearch`; any other token matches as a literal line prefix.  JS `null`
is `none`; note the `#` branch can return `some []` (JS `""`) while the
literal branch maps `""` to `null`.
(For a token of 7 or more `#`s the source's `new RegExp` call throws a
`SyntaxError` — `{7,6}` is out of order — which no caller catches; that
unreachable-in-the-UI crash is modelled as a non-match.) -/
def matchTokenHeading (line token : List Char) : Option (List Char) :=
  let normalized := jsTrim token
  if normalized = [] then none
  else if normalized.all (· = '#') then
    let level := normalized.length
    let n := (line.takeWhile (· = '#')).length
    if level ≤ n ∧ n ≤ 6 then
      let rest := line.drop n
      (captureSearch rest ((rest.takeWhile isWs).length)).map jsTrim
    else none
  else if normalized.isPrefixOf line then
    let remainder := jsTrim (line.drop normalized.length)
    if remainder = [] then none else some remainder
  else none

/-- Heading-text extraction from a regex match: the first truthy of
`match.groups?.text`, `match[1]`, `match[0]`, trimmed (JS `""` is falsy and
falls through). -/
def regexExtract (m : JsMatch) : List Char :=
  match m.groupsText with
  | some t =>
      if t ≠ [] then jsTrim t
      else match m.group1 with
           | some g => if g ≠ [] then jsTrim g else jsTrim m.whole
           | none => jsTrim m.whole
  | none =>
      match m.group1 with
      | some g => if g ≠ [] then jsTrim g else jsTrim m.whole
      | none => jsTrim m.whole

/-- First token whose `matchTokenHeading` result is truthy (non-null and
non-empty), in the order given. -/
def firstTokenMatch (line : List Char) : List (List Char) → Option (List Char)
  | [] => none
  | t :: ts =>
      match matchTokenHeading line t with
      | some h => if h ≠ [] then some h else firstTokenMatch line ts
      | none => firstTokenMatch line ts

/-- `matchHeadingLine` from the source: `none` for a null matcher or a blank
line; otherwise dispatch on the matcher variant.  (In the regex variant the
result may be `some []`, which every caller treats as falsy.) -/
def matchHeadingLine (line : List Char) : Option HeadingMatcher → Option (List Char)
  | none => none
  | some m =>
      let trimmed := jsTrim line
      if trimmed = [] then none
      else
        match m with
        | .regex _ _ exec =>
            match exec trimmed with
            | none => none
            | some mr => some (regexExtract mr)
        | .tokens tks => firstTokenMatch trimmed tks

/-- The `kind`/`error`/`pattern`/`tokens` summary returned by
`getHeadingMatcherInfo` (absent object fields are `none`). -/
structure MatcherInfo where
  kind : Option (List Char)
  error : Option (List Char)
  pattern : Option (List Char)
  tokens : Option (List (List Char))
deriving DecidableEq

/-- `regex.toString()` for the compiled delimiter regex. -/
def regexToString (pattern flags : List Char) : List Char :=
  '/' :: pattern ++ '/' :: flags

/-- `getHeadingMatcherInfo` from the source. -/
def getHeadingMatcherInfo (E : RegexEngine) (input : List Char) : MatcherInfo :=
  match parseHeadingMatcher E input with
  | (none, err) => ⟨none, err, none, none⟩
  | (some (.regex p f _), err) => ⟨some "regex".data, err, some (regexToString p f), none⟩
  | (some (.tokens tks), err) => ⟨some "tokens".data, err, none, some tks⟩

/-- `getHeadingMatch` from the source. -/
def getHeadingMatch (E : RegexEngine) (line input : List Char) : Option (List Char) :=
  matchHeadingLine line (parseHeadingMatcher E input).1

/-! ## Segment builder and preset ("valeon") chunker -/

/-- Segment classification. -/
inductive Block where
  | heading
  | body
deriving DecidableEq

/-- `SpeechSegment` from the source. -/
structure SpeechSegment where
  block : Block
  text : List Char
deriving DecidableEq

/-- `SectionBucket` from the source (`heading?: string` is `Option`). -/
structure SectionBucket where
  heading : Option (List Char)
  paragraphs : List (List Char)
deriving DecidableEq

/-- The fixed 4096-character section envelope of the preset chunker. -/
def VALEON_SECTION_CHAR_LIMIT : Nat := 4096

/-- `flushParagraph`: join the buffered lines with single spaces, trim, and
emit a body segment unless empty. -/
def flushParagraph (acc : List (List Char)) : List SpeechSegment :=
  let p := jsTrim (List.intercalate [' '] acc)
  if p = [] then [] else [⟨.body, p⟩]

/-- Line loop of `buildSegmentsFromText`: blank lines flush the paragraph
buffer, matched heading lines flush it and emit a heading segment (a falsy
match result is body text), other lines extend the buffer. -/
def buildSegmentsGo (matcher : Option HeadingMatcher) :
    List (List Char) → List (List Char) → List SpeechSegment
  | [], acc => flushParagraph acc
  | line :: rest, acc =>
      let trimmed := jsTrim line
      if trimmed = [] then flushParagraph acc ++ buildSegmentsGo matcher rest []
      else
        match matchHeadingLine trimmed matcher with
        | some h =>
            if h ≠ [] then
              flushParagraph acc ++ ⟨.heading, h⟩ :: buildSegmentsGo matcher rest []
            else buildSegmentsGo matcher rest (acc ++ [trimmed])
        | none => buildSegmentsGo matcher rest (acc ++ [trimmed])

/-- `buildSegmentsFromText` from the source, including the fallback single
body segment for non-blank text that produced no segments. -/
def buildSegmentsFromText (E : RegexEngine) (text headingDelimiter : List Char) :
    List SpeechSegment :=
  let matcher := (parseHeadingMatcher E headingDelimiter).1
  match buildSegmentsGo matcher (splitOnChar '\n' text) [] with
  | [] =>
      let trimmed := jsTrim text
      if trimmed = [] then [] else [⟨.body, trimmed⟩]
  | segs => segs

/-- `renderTranscript` from the source. -/
def renderTranscript (segments : List SpeechSegment) : List Char :=
  jsTrim (List.intercalate ['\n', '\n'] (segments.map (·.text)))

/-- Body step of `buildSections`: `ensureSection()` then push the trimmed
text when non-empty. -/
def sectionAddBody (cur : Option SectionBucket) (text : List Char) : SectionBucket :=
  let base := cur.getD ⟨none, []⟩
  let t := jsTrim text
  if t = [] then base else ⟨base.heading, base.paragraphs ++ [t]⟩

/-- Segment loop of `buildSections`.  In the source `current` is the last
pushed section, mutated in place; here it is carried separately and emitted
when replaced or at the end. -/
def buildSectionsGo : List SpeechSegment → Option SectionBucket → List SectionBucket
  | [], cur => cur.toList
  | seg :: rest, cur =>
      match seg.block with
      | .heading => cur.toList ++ buildSectionsGo rest (some ⟨some (jsTrim seg.text), []⟩)
      | .body => buildSectionsGo rest (some (sectionAddBody cur seg.text))

/-- `buildSections` from the source (at least one section is returned). -/
def buildSections (segments : List SpeechSegment) : List SectionBucket :=
  match buildSectionsGo segments none with
  | [] => [⟨none, []⟩]
  | sections => sections

/-- Slice worker for `splitByLength`: `k` is the remaining capacity of the
current slice, accumulated in reverse in `accRev`. -/
def splitByLengthGo (limit : Nat) : Nat → List Char → List Char → List (List Char)
  | _, accRev, [] => if accRev = [] then [] else [accRev.reverse]
  | 0, accRev, c :: rest => accRev.reverse :: splitByLengthGo limit (limit - 1) [c] rest
  | k + 1, accRev, c :: rest => splitByLengthGo limit k (c :: accRev) rest

/-- `splitByLength` from the source: fixed-size slices of `limit` characters,
the last one shorter.  (With `limit = 0` the source's loop never advances;
that divergence is modelled as the single unsliced text.) -/
def splitByLength (text : List Char) (limit : Nat) : List (List Char) :=
  if limit = 0 then [text]
  else splitByLengthGo limit limit [] text

/-- `splitArbitrarily` from the source: fixed-size slices, each trimmed,
empties dropped. -/
def splitArbitrarily (text : List Char) (maxChars : Nat) : List (List Char) :=
  ((splitByLength text maxChars).map jsTrim).filter (· ≠ [])

/-- Sentence loop of `splitLongParagraph`: greedily pack trimmed sentences
space-separated up to `maxChars`; an oversized sentence is flushed around and
hard-sliced. -/
def splitLongParagraphGo (maxChars : Nat) : List (List Char) → List Char → List (List Char)
  | [], cur => if jsTrim cur = [] then [] else [jsTrim cur]
  | s :: ss, cur =>
      let chunk := jsTrim s
      if chunk = [] then splitLongParagraphGo maxChars ss cur
      else if chunk.length > maxChars then
        (if cur = [] then [] else [jsTrim cur]) ++ splitArbitrarily chunk maxChars ++
          splitLongParagraphGo maxChars ss []
      else if cur = [] then splitLongParagraphGo maxChars ss chunk
      else if cur.length + 1 + chunk.length ≤ maxChars then
        splitLongParagraphGo maxChars ss (cur ++ ' ' :: chunk)
      else jsTrim cur :: splitLongParagraphGo maxChars ss chunk

/-- `splitLongParagraph` from the source, with its fall-through to raw
slicing when sentence packing produced nothing. -/
def splitLongParagraph (text : List Char) (maxChars : Nat) : List (List Char) :=
  match splitLongParagraphGo maxChars (splitSentences text) [] with
  | [] => splitArbitrarily text maxChars
  | parts => parts

/-- Flush of the paragraph packer and the rule chunker: push the trimmed
buffer unless blank. -/
def flushBuffer (buffer : List Char) : List (List Char) :=
  if jsTrim buffer = [] then [] else [jsTrim buffer]

/-- Paragraph loop of `chunkParagraphs`: greedy packing with blank-line
separators, oversized paragraphs split sentence-aware. -/
def chunkParagraphsGo (maxChars : Nat) : List (List Char) → List Char → List (List Char)
  | [], buffer => flushBuffer buffer
  | p :: ps, buffer =>
      let text := jsTrim p
      if text = [] then chunkParagraphsGo maxChars ps buffer
      else if text.length > maxChars then
        flushBuffer buffer ++ splitLongParagraph text maxChars ++
          chunkParagraphsGo maxChars ps []
      else if buffer = [] then chunkParagraphsGo maxChars ps text
      else if buffer.length + 2 + text.length ≤ maxChars then
        chunkParagraphsGo maxChars ps (buffer ++ '\n' :: '\n' :: text)
      else flushBuffer buffer ++ chunkParagraphsGo maxChars ps text

/-- `chunkParagraphs` from the source. -/
def chunkParagraphs (paragraphs : List (List Char)) (maxChars : Nat) : List (List Char) :=
  chunkParagraphsGo maxChars paragraphs []

/-- Per-section chunk emission of `chunkValeonText`'s structured path: the
heading (when truthy) as its own chunk, then the section body as one chunk if
it fits both the envelope and `maxChars`, else paragraph packing. -/
def valeonSectionChunks (maxChars : Nat) (section' : SectionBucket) : List (List Char) :=
  (match section'.heading with
   | some h => if h ≠ [] then [h] else []
   | none => []) ++
  (if section'.paragraphs = [] then []
   else
     let sectionText := jsTrim (List.intercalate ['\n', '\n'] section'.paragraphs)
     if sectionText = [] then []
     else if sectionText.length ≤ VALEON_SECTION_CHAR_LIMIT ∧ sectionText.length ≤ maxChars then
       [sectionText]
     else chunkParagraphs section'.paragraphs maxChars)

/-- `chunkValeonText` from the source: fast single-transcript path when no
headings are present and the total fits the fixed envelope, structured
section path otherwise. -/
def chunkValeonText (E : RegexEngine) (text : List Char) (maxChars : Nat)
    (headingDelimiter : List Char) : List (List Char) :=
  let segments := buildSegmentsFromText E text headingDelimiter
  if segments = [] then []
  else
    let totalChars := (segments.map (·.text.length)).sum
    let hasHeadings := segments.any (fun s => s.block = .heading && jsTrim s.text ≠ [])
    if !hasHeadings && totalChars ≤ VALEON_SECTION_CHAR_LIMIT then
      let transcript := renderTranscript segments
      if transcript = [] then []
      else if transcript.length ≤ maxChars then [transcript]
      else splitLongParagraph transcript maxChars
    else (buildSections segments).flatMap (valeonSectionChunks maxChars)

/-! ## Custom rule chunker and the `chunkText` entry point -/

/-- Chunking mode (`CHUNKING_MODES = ["valeon", "custom"]`). -/
inductive ChunkingMode where
  | valeon
  | custom
deriving DecidableEq

/-- `ChunkingConfig` from the store.  Character counts are modelled as
naturals (the UI supplies integer values; see `coerceChunking` for the
load-time coercion of arbitrary persisted values). -/
structure ChunkingConfig where
  mode : ChunkingMode
  targetChars : Nat
  hardLimit : Nat
  splitOnParagraphs : Bool
  splitOnLines : Bool
  splitOnSentences : Bool
  headingDelimiter : List Char
deriving DecidableEq

/-- `VALEON_CHUNKING_PRESET` from the store (sans `mode`). -/
def VALEON_CHUNKING_PRESET : ChunkingConfig :=
  { mode := .valeon
    targetChars := 4096
    hardLimit := 4096
    splitOnParagraphs := true
    splitOnLines := false
    splitOnSentences := true
    headingDelimiter := ['#'] }

/-- Helper for the part-building splitters: prepend a character to the
current (first) part. -/
def consHead (c : Char) : List (List Char) → List (List Char)
  | [] => [[c]]
  | h :: t => (c :: h) :: t

/-- `unit.split(/\n{2,}/)`: a run of two or more newlines separates parts
(the whole greedy run is consumed); a single newline stays inside its part.
`skipping` marks that the tail of a separator run is being consumed. -/
def splitParaGo (skipping : Bool) : List Char → List (List Char)
  | [] => [[]]
  | c :: rest =>
      if skipping then
        if c = '\n' then splitParaGo true rest
        else consHead c (splitParaGo false rest)
      else if c = '\n' then
        match rest with
        | d :: _ => if d = '\n' then [] :: splitParaGo true rest
                    else consHead '\n' (splitParaGo false rest)
        | [] => consHead '\n' [[]]
      else consHead c (splitParaGo false rest)

/-- Split on blank-line separated paragraphs (`/\n{2,}/`). -/
def splitPara (s : List Char) : List (List Char) :=
  splitParaGo false s

/-- `splitUnits` from the source: apply the enabled split stages in fixed
order (paragraphs, lines, sentences), each on the outputs of the previous,
then trim and drop empties. -/
def splitUnits (text : List Char) (rules : ChunkingConfig) : List (List Char) :=
  let u0 := [text]
  let u1 := if rules.splitOnParagraphs then u0.flatMap splitPara else u0
  let u2 := if rules.splitOnLines then u1.flatMap (splitOnChar '\n') else u1
  let u3 := if rules.splitOnSentences then u2.flatMap splitSentences else u2
  (u3.map jsTrim).filter (· ≠ [])

/-- Unit loop of `chunkByRules`: a unit over `hardLimit` is flushed around
and hard-sliced (slices trimmed, empties dropped); otherwise units accumulate
space-separated while the buffer stays within `targetChars`. -/
def chunkByRulesGo (targetChars hardLimit : Nat) :
    List (List Char) → List Char → List (List Char)
  | [], current => flushBuffer current
  | u :: us, current =>
      if u.length > hardLimit then
        flushBuffer current ++ ((splitByLength u hardLimit).map jsTrim).filter (· ≠ []) ++
          chunkByRulesGo targetChars hardLimit us []
      else
        let separator : List Char := if current = [] then [] else [' ']
        if current.length + separator.length + u.length ≤ targetChars then
          chunkByRulesGo targetChars hardLimit us (current ++ separator ++ u)
        else flushBuffer current ++ chunkByRulesGo targetChars hardLimit us u

/-- `chunkByRules` from the source (`targetChars` capped by `hardLimit`). -/
def chunkByRules (text : List Char) (rules : ChunkingConfig) : List (List Char) :=
  chunkByRulesGo (min rules.targetChars rules.hardLimit) rules.hardLimit
    (splitUnits text rules) []

/-- A section of `splitByHeadings`: optional heading plus raw body text. -/
structure HSection where
  heading : Option (List Char)
  body : List Char
deriving DecidableEq

/-- Line loop of `splitByHeadings`: a truthy heading match flushes the
collected body lines and opens a heading section; other lines collect. -/
def splitByHeadingsGo (matcher : Option HeadingMatcher) :
    List (List Char) → List (List Char) → List HSection
  | [], bodyLines =>
      if bodyLines ≠ [] then [⟨none, List.intercalate ['\n'] bodyLines⟩] else []
  | line :: rest, bodyLines =>
      match matchHeadingLine line matcher with
      | some h =>
          if h ≠ [] then
            (if bodyLines ≠ [] then [⟨none, List.intercalate ['\n'] bodyLines⟩] else []) ++
              ⟨some h, []⟩ :: splitByHeadingsGo matcher rest []
          else splitByHeadingsGo matcher rest (bodyLines ++ [line])
      | none => splitByHeadingsGo matcher rest (bodyLines ++ [line])

/-- `splitByHeadings` from the source. -/
def splitByHeadings (E : RegexEngine) (text headingDelimiter : List Char) : List HSection :=
  match (parseHeadingMatcher E headingDelimiter).1 with
  | none => [⟨none, text⟩]
  | some m =>
      match splitByHeadingsGo (some m) (splitOnChar '\n' text) [] with
      | [] => [⟨none, text⟩]
      | sections => sections

/-- Per-section chunks of the custom mode's heading path. -/
def customSectionChunks (rules : ChunkingConfig)
    (section' : HSection) : List (List Char) :=
  (match section'.heading with
   | some h => if h ≠ [] then [jsTrim h] else []
   | none => []) ++
  (if jsTrim section'.body ≠ [] then chunkByRules section'.body rules else [])

/-- `chunkText` from the source: the single entry point.  Valeon mode
delegates to the preset chunker with the preset's hard limit; custom mode
optionally pre-splits by headings, then applies the rule chunker.
(`config.headingDelimiter ?? VALEON_CHUNKING_PRESET.headingDelimiter` never
takes the fallback — the field is non-optional — so it is the field itself.) -/
def chunkText (E : RegexEngine) (text : List Char) (config : ChunkingConfig) :
    List (List Char) :=
  if jsTrim text = [] then []
  else
    match config.mode with
    | .valeon =>
        chunkValeonText E text VALEON_CHUNKING_PRESET.hardLimit config.headingDelimiter
    | .custom =>
        let headingDelimiter := config.headingDelimiter
        if jsTrim headingDelimiter ≠ [] then
          ((splitByHeadings E text headingDelimiter).flatMap
            (customSectionChunks config)).filter (· ≠ [])
        else chunkByRules text config

/-- `Stats` returned by `getTextStats`; `minutes = words / 155` is kept
exact as a rational. -/
structure TextStats where
  characters : Nat
  words : Nat
  chunks : Nat
  minutes : ℚ
deriving DecidableEq

/-- `trimmed.split(/\s+/)` worker: `skipping` marks a whitespace run being
consumed. -/
def splitWsGo (skipping : Bool) : List Char → List (List Char)
  | [] => [[]]
  | c :: rest =>
      if skipping then
        if isWs c then splitWsGo true rest
        else consHead c (splitWsGo false rest)
      else if isWs c then [] :: splitWsGo true rest
      else consHead c (splitWsGo false rest)

/-- `getTextStats` from the source. -/
def getTextStats (text : List Char) (chunks : List (List Char)) : TextStats :=
  let trimmed := jsTrim text
  if trimmed = [] then ⟨0, 0, 0, 0⟩
  else
    let words := ((splitWsGo false trimmed).filter (· ≠ [])).length
    ⟨trimmed.length, words, chunks.length, (words : ℚ) / 155⟩

/-! ## Persisted-configuration coercion (store layer)

`hydrateConfig` funnels arbitrary persisted JSON through `coerceConfig` /
`coerceChunking`.  Persisted values are modelled by `JsValue`; JS numbers by
`JsNumber`, with the finite ones as rationals (every IEEE double is rational,
and `Math.min`/`Math.max`/comparisons agree with the rational order; the
non-finite values are rejected by `Number.isFinite` before any arithmetic). -/

/-- A JS number: finite (as a rational) or one of the non-finite values. -/
inductive JsNumber where
  | finite (q : ℚ)
  | nan
  | posInf
  | negInf
deriving DecidableEq

/-- A persisted JS value as relevant to the coercion layer. -/
inductive JsValue where
  | num (n : JsNumber)
  | str (s : List Char)
  | bool (b : Bool)
  | null
  | undefined
  | obj (fields : List (List Char × JsValue))

/-- Property access `record.key` on a JS value: `undefined` unless an object
with that field (`typeof value === "object" && value !== null ? value : {}`
is applied by the caller). -/
def JsValue.get (v : JsValue) (key : List Char) : JsValue :=
  match v with
  | .obj fields =>
      match fields.find? (fun f => f.1 = key) with
      | some f => f.2
      | none => .undefined
  | _ => .undefined

/-- `typeof value === "object" && value !== null` (arrays also pass, and
behave as objects with numeric keys under `get`). -/
def JsValue.isObject : JsValue → Bool
  | .obj _ => true
  | _ => false

/-- `clampNumber` from the store: non-numbers and non-finite numbers fall
back; finite values are clamped into `[lo, hi]`. -/
def clampNumber (value : JsValue) (fallback lo hi : ℚ) : ℚ :=
  match value with
  | .num (.finite q) => min (max q lo) hi
  | _ => fallback

/-- `coerceString` from the store. -/
def coerceString (value : JsValue) (fallback : List Char) : List Char :=
  match value with
  | .str s => s
  | _ => fallback

/-- `coerceBoolean` from the store. -/
def coerceBoolean (value : JsValue) (fallback : Bool) : Bool :=
  match value with
  | .bool b => b
  | _ => fallback

/-- `coerceEnum` over `CHUNKING_MODES`. -/
def coerceMode (value : JsValue) (fallback : ChunkingMode) : ChunkingMode :=
  match value with
  | .str s =>
      if s = "valeon".data then .valeon
      else if s = "custom".data then .custom
      else fallback
  | _ => fallback

/-- The chunking config as persisted: numbers stay rational here (the
chunker-level `ChunkingConfig` uses naturals; this layer is about the
invariant the coercion enforces). -/
structure StoredChunkingConfig where
  mode : ChunkingMode
  targetChars : ℚ
  hardLimit : ℚ
  splitOnParagraphs : Bool
  splitOnLines : Bool
  splitOnSentences : Bool
  headingDelimiter : List Char
deriving DecidableEq

/-- `defaultConfig.chunking` from the store: the valeon preset. -/
def defaultChunking : StoredChunkingConfig :=
  { mode := .valeon
    targetChars := 4096
    hardLimit := 4096
    splitOnParagraphs := true
    splitOnLines := false
    splitOnSentences := true
    headingDelimiter := ['#'] }

/-- `coerceChunking` from the store: clamp both numbers into `[200, 4096]`
(falling back to the defaults), raise `hardLimit` to `targetChars`, and
coerce the remaining fields. -/
def coerceChunking (value : JsValue) : StoredChunkingConfig :=
  let record := if value.isObject then value else .obj []
  let targetChars :=
    clampNumber (record.get "targetChars".data) defaultChunking.targetChars 200 4096
  let hardLimit :=
    clampNumber (record.get "hardLimit".data) defaultChunking.hardLimit 200 4096
  { mode := coerceMode (record.get "mode".data) defaultChunking.mode
    targetChars := targetChars
    hardLimit := max hardLimit targetChars
    splitOnParagraphs :=
      coerceBoolean (record.get "splitOnParagraphs".data) defaultChunking.splitOnParagraphs
    splitOnLines :=
      coerceBoolean (record.get "splitOnLines".data) defaultChunking.splitOnLines
    splitOnSentences :=
      coerceBoolean (record.get "splitOnSentences".data) defaultChunking.splitOnSentences
    headingDelimiter :=
      coerceString (record.get "headingDelimiter".data) defaultChunking.headingDelimiter }

/-! ## Claim C4: determinism -/

/-- **C4.** `chunkText` is deterministic: two invocations on identical
`(text, config)` pairs (under the same regex environment) return identical
chunk sequences — it is a pure function of its inputs, with no hidden
state. -/
theorem chunkText_deterministic (E : RegexEngine) (text text' : List Char)
    (config config' : ChunkingConfig) (ht : text = text') (hc : config = config') :
    chunkText E text config = chunkText E text' config' := by
  subst ht hc
  rfl

/-- Witness for C4 at a concrete input. -/
theorem chunkText_deterministic_witness :
    chunkText noRegex "# A\nb".data VALEON_CHUNKING_PRESET =
      chunkText noRegex "# A\nb".data VALEON_CHUNKING_PRESET :=
  chunkText_deterministic noRegex _ _ _ _ rfl rfl

/-! ## Claim C8: empty input -/

/-- **C8.** Empty or whitespace-only input is not an error: `chunkText`
returns the empty chunk sequence and `getTextStats` on that input (with those
chunks) returns all-zero stats. -/
theorem chunkText_empty_input (E : RegexEngine) (text : List Char)
    (config : ChunkingConfig) (h : jsTrim text = []) :
    chunkText E text config = [] ∧
      getTextStats text (chunkText E text config) = ⟨0, 0, 0, 0⟩ := by
  have hc : chunkText E text config = [] := by
    simp [chunkText, h]
  refine ⟨hc, ?_⟩
  rw [hc]
  simp [getTextStats, h]

/-- Witness for C8: the whitespace-only input `" \t\n "`. -/
theorem chunkText_empty_input_witness :
    jsTrim " \t\n ".data = [] ∧
      (chunkText noRegex " \t\n ".data VALEON_CHUNKING_PRESET = [] ∧
        getTextStats " \t\n ".data
          (chunkText noRegex " \t\n ".data VALEON_CHUNKING_PRESET) = ⟨0, 0, 0, 0⟩) :=
  ⟨by decide, chunkText_empty_input noRegex _ VALEON_CHUNKING_PRESET (by decide)⟩

/-! ## Claim C9: load-time clamping invariant -/

/-- `clampNumber` lands in `[lo, hi]` whenever the fallback does. -/
theorem clampNumber_mem (value : JsValue) (fallback lo hi : ℚ)
    (hlo : lo ≤ fallback) (hhi : fallback ≤ hi) (hlohi : lo ≤ hi) :
    lo ≤ clampNumber value fallback lo hi ∧ clampNumber value fallback lo hi ≤ hi := by
  cases value with
  | num n =>
      cases n with
      | finite q =>
          constructor
          · exact le_min (le_max_right q lo) hlohi
          · exact min_le_right _ hi
      | nan => exact ⟨hlo, hhi⟩
      | posInf => exact ⟨hlo, hhi⟩
      | negInf => exact ⟨hlo, hhi⟩
  | str s => exact ⟨hlo, hhi⟩
  | bool b => exact ⟨hlo, hhi⟩
  | null => exact ⟨hlo, hhi⟩
  | undefined => exact ⟨hlo, hhi⟩
  | obj fields => exact ⟨hlo, hhi⟩

/-- **C9.** Whatever the persisted value, the coerced chunking config
satisfies `200 ≤ targetChars ≤ hardLimit ≤ 4096`: both numbers are clamped
into `[200, 4096]` and `hardLimit` is raised to at least `targetChars`. -/
theorem coerceChunking_invariant (v : JsValue) :
    200 ≤ (coerceChunking v).targetChars ∧
      (coerceChunking v).targetChars ≤ (coerceChunking v).hardLimit ∧
      (coerceChunking v).hardLimit ≤ 4096 := by
  have ht := clampNumber_mem ((if v.isObject then v else .obj []).get "targetChars".data)
    defaultChunking.targetChars 200 4096 (by norm_num [defaultChunking])
    (by norm_num [defaultChunking]) (by norm_num)
  have hh := clampNumber_mem ((if v.isObject then v else .obj []).get "hardLimit".data)
    defaultChunking.hardLimit 200 4096 (by norm_num [defaultChunking])
    (by norm_num [defaultChunking]) (by norm_num)
  refine ⟨?_, ?_, ?_⟩
  · exact ht.1
  · exact le_max_right _ _
  · exact max_le hh.2 ht.2

/-! ## Claim C6: termination and the slice count of fixed-size slicing -/

theorem splitByLengthGo_length (limit : Nat) (l : List Char) :
    ∀ (k : Nat) (accRev : List Char), 1 ≤ limit →
      (splitByLengthGo limit k accRev l).length =
        if accRev = [] ∧ l = [] then 0 else 1 + (l.length - k + limit - 1) / limit := by
  induction l with
  | nil =>
      intro k accRev hlim
      by_cases h : accRev = []
      · simp [splitByLengthGo, h]
      · rw [if_neg (fun hc => h hc.1)]
        simp only [splitByLengthGo, if_neg h, List.length_cons, List.length_nil]
        have h2 : (0 - k + limit - 1) / limit = 0 := Nat.div_eq_of_lt (by omega)
        omega
  | cons c rest ih =>
      intro k accRev hlim
      cases k with
      | zero =>
          rw [splitByLengthGo, List.length_cons, ih (limit - 1) [c] hlim,
            if_neg (fun hc => List.cons_ne_nil c [] hc.1),
            if_neg (fun hc => List.cons_ne_nil c rest hc.2)]
          simp only [List.length_cons]
          have key : 1 + (rest.length - (limit - 1) + limit - 1) / limit =
              (rest.length + 1 - 0 + limit - 1) / limit := by
            have hr1 : rest.length + 1 - 0 + limit - 1 = rest.length + limit := by omega
            rw [hr1, Nat.add_div_right _ (by omega)]
            rcases Nat.lt_or_ge rest.length (limit - 1) with hr | hr
            · have e1 : rest.length - (limit - 1) = 0 := by omega
              rw [e1]
              have e2 : (0 + limit - 1) / limit = 0 := Nat.div_eq_of_lt (by omega)
              have e3 : rest.length / limit = 0 := Nat.div_eq_of_lt (by omega)
              omega
            · have e1 : rest.length - (limit - 1) + limit - 1 = rest.length := by omega
              rw [e1]
              omega
          omega
      | succ k' =>
          rw [splitByLengthGo, ih k' (c :: accRev) hlim,
            if_neg (fun hc => List.cons_ne_nil c accRev hc.1),
            if_neg (fun hc => List.cons_ne_nil c rest hc.2)]
          simp only [List.length_cons]
          have e1 : rest.length - k' = rest.length + 1 - (k' + 1) := by omega
          rw [e1]

/-- **C6.** In the shallow embedding every chunking function is total, so
`chunkText` is defined (terminates) on every finite input and valid config;
quantitatively, the worst-case strategy — fixed-size character slicing —
produces exactly `⌈n / limit⌉` slices (`(n + limit - 1) / limit` in natural
division), i.e. terminates in that many steps. -/
theorem chunkText_terminates_slice_count (E : RegexEngine) (text : List Char)
    (config : ChunkingConfig) (s : List Char) (limit : Nat)
    (_h200 : 200 ≤ config.targetChars) (_hth : config.targetChars ≤ config.hardLimit)
    (_hh : config.hardLimit ≤ 4096) (hlim : 1 ≤ limit) :
    (∃ chunks, chunkText E text config = chunks) ∧
      (splitByLength s limit).length = (s.length + limit - 1) / limit := by
  refine ⟨⟨_, rfl⟩, ?_⟩
  rw [splitByLength, if_neg (by omega), splitByLengthGo_length limit s limit [] hlim]
  cases s with
  | nil => simp [Nat.div_eq_of_lt (show limit - 1 < limit by omega)]
  | cons c rest =>
      rw [if_neg (by simp)]
      simp only [List.length_cons]
      rcases Nat.lt_or_ge (rest.length + 1) limit with hr | hr
      · have h1 : rest.length + 1 - limit = 0 := by omega
        rw [h1]
        have h2 : (limit - 1) / limit = 0 := Nat.div_eq_of_lt (by omega)
        rw [Nat.zero_add, h2]
        have h3 : rest.length + 1 + limit - 1 = rest.length + limit := by omega
        rw [h3, Nat.add_div_right _ (by omega), Nat.div_eq_of_lt (by omega)]
      · have h1 : rest.length + 1 - limit + limit - 1 = rest.length := by omega
        rw [h1]
        have h3 : rest.length + 1 + limit - 1 = rest.length + limit := by omega
        rw [h3, Nat.add_div_right _ (by omega)]
        omega

/-- Witness for C6 at concrete inputs: a 5-character string sliced with
limit 2 yields `⌈5/2⌉ = 3` slices. -/
theorem chunkText_terminates_slice_count_witness :
    (∃ chunks, chunkText noRegex "abc".data VALEON_CHUNKING_PRESET = chunks) ∧
      (splitByLength "abcde".data 2).length = ("abcde".data.length + 2 - 1) / 2 :=
  chunkText_terminates_slice_count noRegex "abc".data VALEON_CHUNKING_PRESET
    "abcde".data 2 (by decide) (by decide) (by decide) (by decide)

/-! ## Claim C7: malformed regex delimiters are non-fatal -/

theorem chunkByRulesGo_ne_nil (targetChars hardLimit : Nat) :
    ∀ (us : List (List Char)) (current c : List Char),
      c ∈ chunkByRulesGo targetChars hardLimit us current → c ≠ [] := by
  intro us
  induction us with
  | nil =>
      intro current c hc
      simp only [chunkByRulesGo, flushBuffer] at hc
      split at hc
      · simp at hc
      · next h => simp only [List.mem_singleton] at hc; exact hc ▸ h
  | cons u us ih =>
      intro current c hc
      rw [chunkByRulesGo] at hc
      split at hc
      · rcases List.mem_append.mp hc with hc | hc
        · rcases List.mem_append.mp hc with hc | hc
          · simp only [flushBuffer] at hc
            split at hc
            · simp at hc
            · next h => simp only [List.mem_singleton] at hc; exact hc ▸ h
          · exact (List.mem_filter.mp hc).2 |> fun h => by simpa using h
        · exact ih [] c hc
      · dsimp only [] at hc
        split at hc <;> split at hc
        · exact ih _ c hc
        · rcases List.mem_append.mp hc with hc | hc
          · simp only [flushBuffer] at hc
            split at hc
            · simp at hc
            · next h => simp only [List.mem_singleton] at hc; exact hc ▸ h
          · exact ih u c hc
        · exact ih _ c hc
        · rcases List.mem_append.mp hc with hc | hc
          · simp only [flushBuffer] at hc
            split at hc
            · simp at hc
            · next h => simp only [List.mem_singleton] at hc; exact hc ▸ h
          · exact ih u c hc

/-- `chunkByRules` never emits an empty chunk, so the custom heading path's
`.filter(Boolean)` leaves its output unchanged. -/
theorem chunkByRules_filter_ne_nil (text : List Char) (rules : ChunkingConfig) :
    (chunkByRules text rules).filter (· ≠ []) = chunkByRules text rules :=
  List.filter_eq_self.mpr fun c hc => by
    simpa using chunkByRulesGo_ne_nil _ _ _ _ c hc

/-- A null matcher makes the segment builder independent of which delimiter
produced it. -/
theorem buildSegmentsFromText_matcher_none (E : RegexEngine) (text d₁ d₂ : List Char)
    (h₁ : (parseHeadingMatcher E d₁).1 = none) (h₂ : (parseHeadingMatcher E d₂).1 = none) :
    buildSegmentsFromText E text d₁ = buildSegmentsFromText E text d₂ := by
  unfold buildSegmentsFromText
  rw [h₁, h₂]

/-- **C7.** A delimiter in `/…/flags` syntax whose pattern fails to compile
yields a null matcher plus the descriptive error string, and chunking behaves
exactly as with heading detection disabled (empty delimiter) — non-fatal; for
every other delimiter input the surfaced error is null. -/
theorem parseHeadingMatcher_invalid_regex (E : RegexEngine) (input text : List Char)
    (config : ChunkingConfig) :
    (isRegexDelim (jsTrim input) = true →
      E.compile (delimPattern (jsTrim input)) (delimFlags (jsTrim input)) = none →
      parseHeadingMatcher E input = (none, some "Invalid regex delimiter.".data) ∧
        chunkText E text { config with headingDelimiter := input } =
          chunkText E text { config with headingDelimiter := [] }) ∧
    (¬(isRegexDelim (jsTrim input) = true ∧
        E.compile (delimPattern (jsTrim input)) (delimFlags (jsTrim input)) = none) →
      (parseHeadingMatcher E input).2 = none) := by
  constructor
  · intro hwrap hfail
    have htrim : jsTrim input ≠ [] := by
      intro h
      rw [h] at hwrap
      simp [isRegexDelim] at hwrap
    have hparse : parseHeadingMatcher E input = (none, some "Invalid regex delimiter.".data) := by
      unfold parseHeadingMatcher
      rw [if_neg htrim, if_pos hwrap]
      dsimp only []
      rw [hfail]
    refine ⟨hparse, ?_⟩
    have hparse' : (parseHeadingMatcher E input).1 = none := by rw [hparse]
    have hparseNil : (parseHeadingMatcher E ([] : List Char)).1 = none := rfl
    unfold chunkText
    by_cases htext : jsTrim text = []
    · rw [if_pos htext, if_pos htext]
    · rw [if_neg htext, if_neg htext]
      cases hm : config.mode with
      | valeon =>
          simp only
          unfold chunkValeonText
          rw [buildSegmentsFromText_matcher_none E text input [] hparse' hparseNil]
      | custom =>
          simp only
          rw [if_pos (show jsTrim input ≠ [] from htrim)]
          have hjs : jsTrim ([] : List Char) = [] := rfl
          rw [if_neg (show ¬jsTrim ([] : List Char) ≠ [] by simp [hjs])]
          have hsections : splitByHeadings E text input = [⟨none, text⟩] := by
            unfold splitByHeadings
            rw [hparse']
          rw [hsections]
          simp only [List.flatMap_cons, List.flatMap_nil, List.append_nil,
            customSectionChunks]
          rw [if_pos (show jsTrim text ≠ [] from htext)]
          simp only [List.nil_append]
          exact chunkByRules_filter_ne_nil text _
  · intro hok
    unfold parseHeadingMatcher
    by_cases h0 : jsTrim input = []
    · rw [if_pos h0]
    · rw [if_neg h0]
      by_cases h1 : isRegexDelim (jsTrim input) = true
      · rw [if_pos h1]
        dsimp only []
        cases hc : E.compile (delimPattern (jsTrim input)) (delimFlags (jsTrim input)) with
        | none => exact absurd ⟨h1, hc⟩ hok
        | some exec => rfl
      · rw [if_neg h1]
        cases tokenList (jsTrim input) with
        | nil => rfl
        | cons t ts => rfl

/-- Witness for C7: the delimiter `"/x/"` under an engine on which
compilation fails. -/
theorem parseHeadingMatcher_invalid_regex_witness :
    parseHeadingMatcher noRegex "/x/".data = (none, some "Invalid regex delimiter.".data) ∧
      chunkText noRegex "hi".data
          { VALEON_CHUNKING_PRESET with headingDelimiter := "/x/".data } =
        chunkText noRegex "hi".data
          { VALEON_CHUNKING_PRESET with headingDelimiter := [] } :=
  (parseHeadingMatcher_invalid_regex noRegex "/x/".data "hi".data
    VALEON_CHUNKING_PRESET).1 (by decide) rfl

/-! ## Trim idempotence and claim C10 -/

theorem jsTrim_eq_rdropWhile (s : List Char) :
    jsTrim s = List.rdropWhile isWs (s.dropWhile isWs) := rfl

theorem jsTrim_dropWhile (s : List Char) :
    (jsTrim s).dropWhile isWs = jsTrim s := by
  rw [jsTrim_eq_rdropWhile]
  have hAself : (s.dropWhile isWs).dropWhile isWs = s.dropWhile isWs :=
    List.dropWhile_idempotent _ _
  obtain ⟨t, ht⟩ := List.rdropWhile_prefix isWs (s.dropWhile isWs)
  cases hr : List.rdropWhile isWs (s.dropWhile isWs) with
  | nil => simp
  | cons a r =>
      have hmem : s.dropWhile isWs = a :: (r ++ t) := by
        rw [← ht, hr]
        simp
      have hna : ¬isWs a = true := by
        intro hwa
        rw [hmem, List.dropWhile_cons_of_pos hwa] at hAself
        have hlen := congrArg List.length hAself
        have hle := length_dropWhile_le' isWs (r ++ t)
        simp only [List.length_cons] at hlen
        omega
      rw [List.dropWhile_cons_of_neg hna]

theorem jsTrim_idem (s : List Char) : jsTrim (jsTrim s) = jsTrim s := by
  conv_lhs => rw [jsTrim_eq_rdropWhile (jsTrim s), jsTrim_dropWhile]
  rw [jsTrim_eq_rdropWhile]
  exact List.rdropWhile_idempotent _ _

theorem isPrefixOf_self (l : List Char) : l.isPrefixOf l = true := by
  induction l with
  | nil => rfl
  | cons a t ih => simp [List.isPrefixOf, ih]

theorem splitOnChar_eq_self_of_not_mem (sep : Char) (s : List Char)
    (h : sep ∉ s) : splitOnChar sep s = [s] := by
  induction s with
  | nil => rfl
  | cons c rest ih =>
      rw [splitOnChar,
        if_neg (fun hc => h (by rw [← hc]; exact List.mem_cons_self c rest)),
        ih (fun hm => h (List.mem_cons_of_mem c hm))]

/-- A literal (non-`#`) token never matches a line that is exactly the token
(after trimming): the remainder after the prefix is blank, which the source
maps to `null`. -/
theorem matchTokenHeading_exact_token (line t : List Char)
    (hlit : jsTrim t ≠ []) (hnothash : (jsTrim t).all (· = '#') = false)
    (hline : jsTrim line = jsTrim t) :
    matchTokenHeading (jsTrim line) t = none := by
  unfold matchTokenHeading
  rw [if_neg hlit]
  rw [hnothash]
  simp only [Bool.false_eq_true, if_false]
  rw [hline, if_pos (isPrefixOf_self (jsTrim t))]
  rw [List.drop_length]
  simp [jsTrim]

/-- **C10.** For a single-token matcher whose token is a literal (non-`#`)
prefix, a line whose trimmed content equals the token exactly (equivalently:
only whitespace follows the prefix) is not detected as a heading:
`getHeadingMatch` returns `none`, and the segment builder classifies the line
as body text (a one-line text yields a single body segment). -/
theorem literal_token_exact_line_is_body (E : RegexEngine) (input line t : List Char)
    (hp : (parseHeadingMatcher E input).1 = some (.tokens [t]))
    (hlit : jsTrim t ≠ []) (hnothash : (jsTrim t).all (· = '#') = false)
    (hline : jsTrim line = jsTrim t) (hnl : '\n' ∉ line) :
    getHeadingMatch E line input = none ∧
      buildSegmentsFromText E line input = [⟨.body, jsTrim line⟩] := by
  have htrimline : jsTrim line ≠ [] := by rw [hline]; exact hlit
  have hmatch : matchHeadingLine line (parseHeadingMatcher E input).1 = none := by
    rw [hp]
    simp only [matchHeadingLine]
    rw [if_neg htrimline]
    unfold firstTokenMatch
    rw [matchTokenHeading_exact_token line t hlit hnothash hline]
    rfl
  have hmatch' : matchHeadingLine (jsTrim line) (parseHeadingMatcher E input).1 = none := by
    rw [hp] at hmatch ⊢
    simp only [matchHeadingLine] at hmatch ⊢
    rw [jsTrim_idem]
    exact hmatch
  refine ⟨hmatch, ?_⟩
  unfold buildSegmentsFromText
  rw [splitOnChar_eq_self_of_not_mem '\n' line hnl]
  simp only [buildSegmentsGo, if_neg htrimline]
  rw [hmatch']
  have hsing : List.intercalate [' '] [jsTrim line] = jsTrim line := by
    simp [List.intercalate]
  simp only [buildSegmentsGo, flushParagraph, List.nil_append, hsing, jsTrim_idem,
    if_neg htrimline]

/-- Witness for C10: token `">>"`, line `">>  "`. -/
theorem literal_token_exact_line_is_body_witness :
    getHeadingMatch noRegex ">>  ".data ">>".data = none ∧
      buildSegmentsFromText noRegex ">>  ".data ">>".data = [⟨.body, jsTrim ">>  ".data⟩] :=
  literal_token_exact_line_is_body noRegex ">>".data ">>  ".data ">>".data
    rfl (by decide) (by decide) (by decide) (by decide)

/-! ## Claim C2: chunk-length bound in Custom mode -/

theorem splitByLengthGo_piece_le (limit : Nat) (hlim : 1 ≤ limit) (l : List Char) :
    ∀ (k : Nat) (accRev : List Char), accRev.length + k ≤ limit →
      ∀ c ∈ splitByLengthGo limit k accRev l, c.length ≤ limit := by
  induction l with
  | nil =>
      intro k accRev hinv c hc
      rw [splitByLengthGo] at hc
      split at hc
      · simp at hc
      · simp only [List.mem_singleton] at hc
        subst hc
        simp only [List.length_reverse]
        omega
  | cons a rest ih =>
      intro k accRev hinv c hc
      cases k with
      | zero =>
          rw [splitByLengthGo] at hc
          rcases List.mem_cons.mp hc with hc | hc
          · subst hc
            simp only [List.length_reverse]
            omega
          · exact ih (limit - 1) [a] (by simp only [List.length_cons, List.length_nil]; omega) c hc
      | succ k' =>
          rw [splitByLengthGo] at hc
          exact ih k' (a :: accRev) (by simp only [List.length_cons]; omega) c hc

theorem splitByLength_piece_le (text : List Char) (limit : Nat) (hlim : 1 ≤ limit) :
    ∀ c ∈ splitByLength text limit, c.length ≤ limit := by
  intro c hc
  rw [splitByLength, if_neg (by omega)] at hc
  exact splitByLengthGo_piece_le limit hlim text limit [] (by simp) c hc

theorem flushBuffer_le (buffer c : List Char) (hc : c ∈ flushBuffer buffer) :
    c.length ≤ buffer.length := by
  simp only [flushBuffer] at hc
  split at hc
  · simp at hc
  · simp only [List.mem_singleton] at hc
    exact hc ▸ jsTrim_length_le buffer

theorem chunkByRulesGo_le (targetChars hardLimit : Nat) (hth : targetChars ≤ hardLimit)
    (hlim : 1 ≤ hardLimit) :
    ∀ (us : List (List Char)) (current : List Char), current.length ≤ hardLimit →
      ∀ c ∈ chunkByRulesGo targetChars hardLimit us current, c.length ≤ hardLimit := by
  intro us
  induction us with
  | nil =>
      intro current hcur c hc
      exact le_trans (flushBuffer_le current c hc) hcur
  | cons u us ih =>
      intro current hcur c hc
      rw [chunkByRulesGo] at hc
      split at hc
      · rcases List.mem_append.mp hc with hc | hc
        · rcases List.mem_append.mp hc with hc | hc
          · exact le_trans (flushBuffer_le current c hc) hcur
          · have hm := (List.mem_filter.mp hc).1
            obtain ⟨p, hp, hpc⟩ := List.mem_map.mp hm
            have := splitByLength_piece_le u hardLimit hlim p hp
            rw [← hpc]
            exact le_trans (jsTrim_length_le p) this
        · exact ih [] (by simp) c hc
      · next hno =>
        dsimp only [] at hc
        split at hc <;> split at hc
        · next hcur0 hfit =>
          refine ih _ ?_ c hc
          simp only [List.length_append]
          omega
        · next hcur0 hfit =>
          rcases List.mem_append.mp hc with hc | hc
          · exact le_trans (flushBuffer_le current c hc) hcur
          · exact ih u (by omega) c hc
        · next hcur0 hfit =>
          refine ih _ ?_ c hc
          simp only [List.length_append] at *
          omega
        · next hcur0 hfit =>
          rcases List.mem_append.mp hc with hc | hc
          · exact le_trans (flushBuffer_le current c hc) hcur
          · exact ih u (by omega) c hc

/-- Every chunk of the rule chunker fits `hardLimit` (oversized units are
sliced into pieces of at most `hardLimit`). -/
theorem chunkByRules_le (text : List Char) (rules : ChunkingConfig)
    (hlim : 1 ≤ rules.hardLimit) :
    ∀ c ∈ chunkByRules text rules, c.length ≤ rules.hardLimit := by
  intro c hc
  exact chunkByRulesGo_le (min rules.targetChars rules.hardLimit) rules.hardLimit
    (min_le_right _ _) hlim (splitUnits text rules) [] (by simp) c hc

/-- **C2 (amended).** In Custom mode with
`200 ≤ targetChars ≤ hardLimit ≤ 4096`, every chunk of `chunkText` either has
length `≤ hardLimit` — oversized indivisible units are sliced so each piece
fits — or is the trimmed text of a heading extracted by a non-blank heading
delimiter: heading chunks are emitted verbatim and may exceed `hardLimit`. -/
theorem chunkText_custom_bound (E : RegexEngine) (text : List Char)
    (config : ChunkingConfig) (hmode : config.mode = .custom)
    (h200 : 200 ≤ config.targetChars) (hth : config.targetChars ≤ config.hardLimit)
    (h4096 : config.hardLimit ≤ 4096) :
    ∀ c ∈ chunkText E text config, c.length ≤ config.hardLimit ∨
      ∃ sec ∈ splitByHeadings E text config.headingDelimiter,
        ∃ h, sec.heading = some h ∧ h ≠ [] ∧ c = jsTrim h := by
  intro c hc
  have hlim : 1 ≤ config.hardLimit := by omega
  rw [chunkText] at hc
  split at hc
  · simp at hc
  · rw [hmode] at hc
    dsimp only [] at hc
    split at hc
    · have hflat := List.mem_filter.mp hc |>.1
      obtain ⟨sec, hsec, hcs⟩ := List.mem_flatMap.mp hflat
      rw [customSectionChunks] at hcs
      rcases List.mem_append.mp hcs with hcs | hcs
      · right
        refine ⟨sec, hsec, ?_⟩
        split at hcs
        · next h heq =>
          split at hcs
          · next hne =>
            simp only [List.mem_singleton] at hcs
            exact ⟨h, heq, hne, hcs⟩
          · simp at hcs
        · simp at hcs
      · left
        split at hcs
        · exact chunkByRules_le sec.body config hlim c hcs
        · simp at hcs
    · left
      exact chunkByRules_le text config hlim c hc

/-- Witness for C2 (amended) at a concrete valid config, text and chunk. -/
theorem chunkText_custom_bound_witness :
    "one two three".data ∈ chunkText noRegex "one two three".data
        { mode := .custom, targetChars := 200, hardLimit := 220,
          splitOnParagraphs := true, splitOnLines := false, splitOnSentences := true,
          headingDelimiter := [] } ∧
      ("one two three".data.length ≤
          ({ mode := .custom, targetChars := 200, hardLimit := 220,
             splitOnParagraphs := true, splitOnLines := false,
             splitOnSentences := true,
             headingDelimiter := [] } : ChunkingConfig).hardLimit ∨
        ∃ sec ∈ splitByHeadings noRegex "one two three".data [],
          ∃ h, sec.heading = some h ∧ h ≠ [] ∧ "one two three".data = jsTrim h) :=
  ⟨by decide,
    chunkText_custom_bound noRegex "one two three".data _ rfl (by decide) (by decide)
      (by decide) "one two three".data (by decide)⟩

/-- Input for the C2 counterexample: a heading line whose extracted text has
201 characters. -/
def oversizedHeadingText : List Char := '#' :: ' ' :: List.replicate 201 'a'

/-- Config for the C2 counterexample: valid bounds, `#` delimiter. -/
def oversizedHeadingConfig : ChunkingConfig :=
  { mode := .custom, targetChars := 200, hardLimit := 200,
    splitOnParagraphs := true, splitOnLines := false, splitOnSentences := true,
    headingDelimiter := ['#'] }

/-- **C2 is false as stated**: with valid bounds
`200 = targetChars = hardLimit` and delimiter `#`, the line `"# a…a"` (201
`a`s) produces the single 201-character heading chunk, which exceeds
`hardLimit` and is not sliced. -/
theorem chunkText_custom_bound_counterexample :
    (oversizedHeadingConfig.mode = .custom ∧
      200 ≤ oversizedHeadingConfig.targetChars ∧
      oversizedHeadingConfig.targetChars ≤ oversizedHeadingConfig.hardLimit ∧
      oversizedHeadingConfig.hardLimit ≤ 4096) ∧
    ¬(∀ c ∈ chunkText noRegex oversizedHeadingText oversizedHeadingConfig,
        c.length ≤ oversizedHeadingConfig.hardLimit) := by
  constructor
  · exact ⟨rfl, by decide, by decide, by decide⟩
  · decide

/-! ## Claim C3: heading isolation -/

theorem mem_of_mem_splitOnChar (sep : Char) (s part : List Char) (c : Char)
    (hpart : part ∈ splitOnChar sep s) (hc : c ∈ part) : c ∈ s := by
  induction s generalizing part with
  | nil =>
      simp only [splitOnChar, List.mem_singleton] at hpart
      rw [hpart] at hc
      exact absurd hc (List.not_mem_nil c)
  | cons a rest ih =>
      rw [splitOnChar] at hpart
      split at hpart
      · rcases List.mem_cons.mp hpart with heq | hmem
        · rw [heq] at hc
          exact absurd hc (List.not_mem_nil c)
        · exact List.mem_cons_of_mem a (ih part hmem hc)
      · split at hpart
        · next hnil => exact absurd hnil (splitOnChar_ne_nil sep rest)
        · next hd tl hsplit =>
          rcases List.mem_cons.mp hpart with heq | hmem
          · rw [heq] at hc
            rcases List.mem_cons.mp hc with hca | hcd
            · rw [hca]; exact List.mem_cons_self a rest
            · refine List.mem_cons_of_mem a (ih hd ?_ hcd)
              rw [hsplit]
              exact List.mem_cons_self hd tl
          · refine List.mem_cons_of_mem a (ih part ?_ hc)
            rw [hsplit]
            exact List.mem_cons_of_mem hd hmem

theorem matchHeadingLine_some_trim_ne_nil (line : List Char) (m : Option HeadingMatcher)
    (h : List Char) (hm : matchHeadingLine line m = some h) : jsTrim line ≠ [] := by
  intro htrim
  cases m with
  | none => exact Option.noConfusion hm
  | some mm =>
      simp only [matchHeadingLine, htrim, if_pos] at hm
      exact Option.noConfusion hm

theorem matchHeadingLine_trim_invariant (line : List Char) (m : Option HeadingMatcher) :
    matchHeadingLine (jsTrim line) m = matchHeadingLine line m := by
  cases m with
  | none => rfl
  | some mm =>
      simp only [matchHeadingLine]
      rw [jsTrim_idem]

theorem jsTrim_regexExtract (m : JsMatch) :
    jsTrim (regexExtract m) = regexExtract m := by
  unfold regexExtract
  split
  · split
    · exact jsTrim_idem _
    · split
      · split
        · exact jsTrim_idem _
        · exact jsTrim_idem _
      · exact jsTrim_idem _
  · split
    · split
      · exact jsTrim_idem _
      · exact jsTrim_idem _
    · exact jsTrim_idem _

theorem matchTokenHeading_trimmed (line t h : List Char)
    (hm : matchTokenHeading line t = some h) : jsTrim h = h := by
  unfold matchTokenHeading at hm
  dsimp only [] at hm
  split at hm
  · exact Option.noConfusion hm
  · split at hm
    · split at hm
      · obtain ⟨cap, _, hcap⟩ := Option.map_eq_some'.mp hm
        rw [← hcap]
        exact jsTrim_idem _
      · exact Option.noConfusion hm
    · split at hm
      · split at hm
        · exact Option.noConfusion hm
        · rw [← Option.some_inj.mp hm]
          exact jsTrim_idem _
      · exact Option.noConfusion hm

theorem firstTokenMatch_trimmed (line : List Char) (tks : List (List Char))
    (h : List Char) (hm : firstTokenMatch line tks = some h) : jsTrim h = h := by
  induction tks with
  | nil => exact Option.noConfusion hm
  | cons t ts ih =>
      rw [firstTokenMatch] at hm
      split at hm
      · next ht =>
        split at hm
        · exact (Option.some_inj.mp hm) ▸ matchTokenHeading_trimmed line t _ ht
        · exact ih hm
      · exact ih hm

theorem matchHeadingLine_trimmed (line : List Char) (m : Option HeadingMatcher)
    (h : List Char) (hm : matchHeadingLine line m = some h) : jsTrim h = h := by
  cases m with
  | none => exact Option.noConfusion hm
  | some mm =>
      simp only [matchHeadingLine] at hm
      split at hm
      · exact Option.noConfusion hm
      · cases mm with
        | regex p f exec =>
            simp only at hm
            split at hm
            · exact Option.noConfusion hm
            · rw [← Option.some_inj.mp hm]
              exact jsTrim_regexExtract _
        | tokens tks => exact firstTokenMatch_trimmed _ tks h hm

theorem heading_mem_buildSegmentsGo (matcher : Option HeadingMatcher)
    (lines : List (List Char)) (line h : List Char) (hline : line ∈ lines)
    (hmatch : matchHeadingLine line matcher = some h) (hne : h ≠ []) :
    ∀ acc, (⟨.heading, h⟩ : SpeechSegment) ∈ buildSegmentsGo matcher lines acc := by
  induction lines with
  | nil => exact absurd hline (List.not_mem_nil line)
  | cons l ls ih =>
      intro acc
      rcases List.mem_cons.mp hline with heq | hmem
      · subst heq
        rw [buildSegmentsGo,
          if_neg (matchHeadingLine_some_trim_ne_nil line matcher h hmatch)]
        rw [matchHeadingLine_trim_invariant, hmatch]
        simp only [if_pos hne]
        exact List.mem_append_right _ (List.mem_cons_self _ _)
      · rw [buildSegmentsGo]
        split
        · exact List.mem_append_right _ (ih hmem [])
        · split
          · split
            · exact List.mem_append_right _ (List.mem_cons_of_mem _ (ih hmem []))
            · exact ih hmem _
          · exact ih hmem _

theorem heading_mem_buildSegmentsFromText (E : RegexEngine) (text delim line h : List Char)
    (hline : line ∈ splitOnChar '\n' text)
    (hmatch : matchHeadingLine line (parseHeadingMatcher E delim).1 = some h)
    (hne : h ≠ []) :
    (⟨.heading, h⟩ : SpeechSegment) ∈ buildSegmentsFromText E text delim := by
  have hmem := heading_mem_buildSegmentsGo (parseHeadingMatcher E delim).1
    (splitOnChar '\n' text) line h hline hmatch hne []
  unfold buildSegmentsFromText
  dsimp only []
  cases hgo : buildSegmentsGo (parseHeadingMatcher E delim).1 (splitOnChar '\n' text) [] with
  | nil => rw [hgo] at hmem; exact absurd hmem (List.not_mem_nil _)
  | cons s₁ ss =>
      rw [hgo] at hmem
      exact hmem

theorem heading_mem_buildSectionsGo_current (segs : List SpeechSegment)
    (hdg : List Char) :
    ∀ c : SectionBucket, c.heading = some hdg →
      ∃ sec ∈ buildSectionsGo segs (some c), sec.heading = some hdg := by
  induction segs with
  | nil =>
      intro c hc
      exact ⟨c, by simp [buildSectionsGo], hc⟩
  | cons seg rest ih =>
      intro c hc
      rw [buildSectionsGo]
      cases hb : seg.block with
      | heading =>
          refine ⟨c, ?_, hc⟩
          simp [Option.toList]
      | body =>
          obtain ⟨sec, hmem, hsec⟩ := ih (sectionAddBody (some c) seg.text) (by
            simp only [sectionAddBody, Option.getD_some]
            split
            · exact hc
            · exact hc)
          exact ⟨sec, hmem, hsec⟩

theorem heading_mem_buildSectionsGo (segs : List SpeechSegment) (h : List Char)
    (hmem : (⟨.heading, h⟩ : SpeechSegment) ∈ segs) :
    ∀ cur, ∃ sec ∈ buildSectionsGo segs cur, sec.heading = some (jsTrim h) := by
  induction segs with
  | nil => exact absurd hmem (List.not_mem_nil _)
  | cons seg rest ih =>
      intro cur
      rcases List.mem_cons.mp hmem with heq | hmem'
      · rw [buildSectionsGo, ← heq]
        obtain ⟨sec, hm, hs⟩ :=
          heading_mem_buildSectionsGo_current rest (jsTrim h) ⟨some (jsTrim h), []⟩ rfl
        exact ⟨sec, List.mem_append_right _ hm, hs⟩
      · rw [buildSectionsGo]
        cases hb : seg.block with
        | heading =>
            obtain ⟨sec, hm, hs⟩ := ih hmem' (some ⟨some (jsTrim seg.text), []⟩)
            exact ⟨sec, List.mem_append_right _ hm, hs⟩
        | body => exact ih hmem' _

theorem heading_mem_buildSections (segs : List SpeechSegment) (h : List Char)
    (hmem : (⟨.heading, h⟩ : SpeechSegment) ∈ segs) :
    ∃ sec ∈ buildSections segs, sec.heading = some (jsTrim h) := by
  obtain ⟨sec, hm, hs⟩ := heading_mem_buildSectionsGo segs h hmem none
  unfold buildSections
  cases hgo : buildSectionsGo segs none with
  | nil => rw [hgo] at hm; exact absurd hm (List.not_mem_nil _)
  | cons s₁ ss =>
      rw [hgo] at hm
      exact ⟨sec, hm, hs⟩

theorem heading_mem_chunkValeonText (E : RegexEngine) (text delim line h : List Char)
    (maxChars : Nat) (hline : line ∈ splitOnChar '\n' text)
    (hmatch : matchHeadingLine line (parseHeadingMatcher E delim).1 = some h)
    (hne : h ≠ []) : h ∈ chunkValeonText E text maxChars delim := by
  have htr : jsTrim h = h := matchHeadingLine_trimmed line _ h hmatch
  have hseg := heading_mem_buildSegmentsFromText E text delim line h hline hmatch hne
  unfold chunkValeonText
  dsimp only []
  rw [if_neg (List.ne_nil_of_mem hseg)]
  have hhas : (buildSegmentsFromText E text delim).any
      (fun s => s.block = .heading && jsTrim s.text ≠ []) = true := by
    rw [List.any_eq_true]
    refine ⟨⟨.heading, h⟩, hseg, ?_⟩
    simp [htr, hne]
  rw [hhas]
  simp only [Bool.not_true, Bool.false_and, Bool.false_eq_true, if_false]
  obtain ⟨sec, hm, hs⟩ := heading_mem_buildSections _ h hseg
  refine List.mem_flatMap.mpr ⟨sec, hm, ?_⟩
  unfold valeonSectionChunks
  rw [hs, htr]
  simp only [if_pos hne]
  exact List.mem_append_left _ (List.mem_cons_self _ _)

theorem heading_mem_splitByHeadingsGo (matcher : Option HeadingMatcher)
    (lines : List (List Char)) (line h : List Char) (hline : line ∈ lines)
    (hmatch : matchHeadingLine line matcher = some h) (hne : h ≠ []) :
    ∀ acc, (⟨some h, []⟩ : HSection) ∈ splitByHeadingsGo matcher lines acc := by
  induction lines with
  | nil => exact absurd hline (List.not_mem_nil line)
  | cons l ls ih =>
      intro acc
      rcases List.mem_cons.mp hline with heq | hmem
      · subst heq
        rw [splitByHeadingsGo, hmatch]
        simp only [if_pos hne]
        exact List.mem_append_right _ (List.mem_cons_self _ _)
      · rw [splitByHeadingsGo]
        split
        · split
          · exact List.mem_append_right _ (List.mem_cons_of_mem _ (ih hmem []))
          · exact ih hmem _
        · exact ih hmem _

/-- **C3.** In Preset mode, and in Custom mode with a non-blank heading
delimiter, every line of the input that the compiled heading matcher detects
as a heading (a truthy match) contributes its extracted heading text as a
chunk of its own in the output of `chunkText`. -/
theorem heading_isolation (E : RegexEngine) (text : List Char)
    (config : ChunkingConfig) (line h : List Char)
    (hmode : config.mode = .valeon ∨
      (config.mode = .custom ∧ jsTrim config.headingDelimiter ≠ []))
    (hline : line ∈ splitOnChar '\n' text)
    (hmatch : matchHeadingLine line (parseHeadingMatcher E config.headingDelimiter).1 =
      some h)
    (hne : h ≠ []) : h ∈ chunkText E text config := by
  have htr : jsTrim h = h := matchHeadingLine_trimmed line _ h hmatch
  have hlineTrim : jsTrim line ≠ [] := matchHeadingLine_some_trim_ne_nil line _ h hmatch
  have htext : jsTrim text ≠ [] := by
    intro habs
    have hnwsText : nws text = [] := nws_eq_nil_of_jsTrim_eq_nil text habs
    have hallWs : ∀ c ∈ text, isWs c := by
      intro c hc
      by_contra hw
      have : c ∈ nws text := List.mem_filter.mpr ⟨hc, by simpa using hw⟩
      rw [hnwsText] at this
      exact absurd this (List.not_mem_nil c)
    have hallLine : ∀ c ∈ line, isWs c := by
      intro c hc
      exact hallWs c (mem_of_mem_splitOnChar '\n' text line c hline hc)
    exact hlineTrim (jsTrim_eq_nil_of_all_ws line hallLine)
  rw [chunkText, if_neg htext]
  rcases hmode with hv | ⟨hc, hd⟩
  · rw [hv]
    exact heading_mem_chunkValeonText E text config.headingDelimiter line h
      VALEON_CHUNKING_PRESET.hardLimit hline hmatch hne
  · rw [hc]
    dsimp only []
    rw [if_pos hd]
    refine List.mem_filter.mpr ⟨?_, by simpa using hne⟩
    have hsec : (⟨some h, []⟩ : HSection) ∈ splitByHeadings E text config.headingDelimiter := by
      unfold splitByHeadings
      cases hp : (parseHeadingMatcher E config.headingDelimiter).1 with
      | none => rw [hp] at hmatch; exact Option.noConfusion hmatch
      | some m =>
          have hmem := heading_mem_splitByHeadingsGo (some m) (splitOnChar '\n' text)
            line h hline (hp ▸ hmatch) hne []
          cases hgo : splitByHeadingsGo (some m) (splitOnChar '\n' text) [] with
          | nil => rw [hgo] at hmem; exact absurd hmem (List.not_mem_nil _)
          | cons s₁ ss =>
              rw [hgo] at hmem
              dsimp only []
              rw [hgo]
              exact hmem
    refine List.mem_flatMap.mpr ⟨⟨some h, []⟩, hsec, ?_⟩
    unfold customSectionChunks
    simp only [if_pos hne]
    rw [htr]
    exact List.mem_append_left _ (List.mem_cons_self _ _)

/-- Witness for C3: preset mode, line `"# Title"` in a two-line text. -/
theorem heading_isolation_witness :
    "Title".data ∈ chunkText noRegex "# Title\nBody text".data VALEON_CHUNKING_PRESET :=
  heading_isolation noRegex "# Title\nBody text".data VALEON_CHUNKING_PRESET
    "# Title".data "Title".data (Or.inl rfl) (by decide) (by decide) (by decide)

/-! ## Claim C5: idempotence of `normalizeText` -/

theorem mem_of_mem_dropWhile {α : Type _} (p : α → Bool) (l : List α) (c : α)
    (hc : c ∈ l.dropWhile p) : c ∈ l := by
  induction l with
  | nil => simp at hc
  | cons a rest ih =>
      by_cases h : p a
      · rw [List.dropWhile_cons_of_pos h] at hc
        exact List.mem_cons_of_mem a (ih hc)
      · rwa [List.dropWhile_cons_of_neg h] at hc

theorem dropWhile_suffix' {α : Type _} (p : α → Bool) (l : List α) :
    l.dropWhile p <:+ l := by
  induction l with
  | nil => exact List.suffix_refl []
  | cons a rest ih =>
      by_cases h : p a
      · rw [List.dropWhile_cons_of_pos h]
        exact ih.trans (List.suffix_cons a rest)
      · rw [List.dropWhile_cons_of_neg h]

theorem jsTrim_infixOfSelf (s : List Char) : jsTrim s <:+: s := by
  rw [jsTrim_eq_rdropWhile]
  obtain ⟨t, ht⟩ := List.rdropWhile_prefix isWs (s.dropWhile isWs)
  obtain ⟨u, hu⟩ := dropWhile_suffix' isWs s
  exact ⟨u, t, by rw [List.append_assoc, ht, hu]⟩

theorem mem_jsTrim_imp (s : List Char) (c : Char) (hc : c ∈ jsTrim s) : c ∈ s :=
  (jsTrim_infixOfSelf s).subset hc

theorem mem_collapseRun_imp (c : Char) :
    ∀ (b : Bool) (l : List Char), c ∈ collapseRun b l → c = ' ' ∨ c ∈ l := by
  intro b l
  induction l generalizing b with
  | nil => intro hc; simp [collapseRun] at hc
  | cons a rest ih =>
      intro hc
      rw [collapseRun] at hc
      split at hc
      · split at hc
        · rcases ih true hc with h | h
          · exact Or.inl h
          · exact Or.inr (List.mem_cons_of_mem a h)
        · rcases List.mem_cons.mp hc with h | h
          · exact Or.inl h
          · rcases ih true h with h' | h'
            · exact Or.inl h'
            · exact Or.inr (List.mem_cons_of_mem a h')
      · rcases List.mem_cons.mp hc with h | h
        · exact Or.inr (h ▸ List.mem_cons_self a rest)
        · rcases ih false h with h' | h'
          · exact Or.inl h'
          · exact Or.inr (List.mem_cons_of_mem a h')

theorem mem_normalizeLine_imp (s : List Char) (c : Char) (hc : c ∈ normalizeLine s) :
    c = ' ' ∨ c ∈ s := by
  rcases mem_collapseRun_imp c false s (mem_jsTrim_imp _ c hc) with h | h
  · exact Or.inl h
  · exact Or.inr h

theorem not_mem_replaceCR (s : List Char) : '\r' ∉ replaceCR s := by
  intro hc
  obtain ⟨a, _, ha⟩ := List.mem_map.mp hc
  by_cases h : a = '\r' <;> simp [h] at ha

theorem stripCRLF_eq_self (s : List Char) (h : '\r' ∉ s) : stripCRLF s = s := by
  induction s with
  | nil => rfl
  | cons a rest ih =>
      have ha : a ≠ '\r' := fun hc => h (hc ▸ List.mem_cons_self a rest)
      have hrest : '\r' ∉ rest := fun hc => h (List.mem_cons_of_mem a hc)
      cases rest with
      | nil => rfl
      | cons d r =>
          rw [stripCRLF, if_neg (fun hc => ha hc.1), ih hrest]

theorem replaceCR_eq_self (s : List Char) (h : '\r' ∉ s) : replaceCR s = s := by
  unfold replaceCR
  induction s with
  | nil => rfl
  | cons a rest ih =>
      rw [List.map_cons,
        if_neg (fun hc => h (by rw [← hc]; exact List.mem_cons_self a rest)),
        ih (fun hc => h (List.mem_cons_of_mem a hc))]

theorem collapseRun_no_tab :
    ∀ (l : List Char) (b : Bool) (c : Char), c ∈ collapseRun b l → c ≠ '\t' := by
  intro l
  induction l with
  | nil => intro b c hc; simp [collapseRun] at hc
  | cons a rest ih =>
      intro b c hc
      rw [collapseRun] at hc
      split at hc
      · split at hc
        · exact ih true c hc
        · rcases List.mem_cons.mp hc with h | h
          · rw [h]; decide
          · exact ih true c h
      · next hnst =>
        rcases List.mem_cons.mp hc with h | h
        · rw [h]
          intro htab
          rw [htab] at hnst
          simp at hnst
        · exact ih false c h

theorem collapseRun_true_head :
    ∀ (l : List Char) (d : Char), (collapseRun true l).head? = some d →
      ¬(d = ' ' || d = '\t') = true := by
  intro l
  induction l with
  | nil => intro d hd; simp [collapseRun] at hd
  | cons a rest ih =>
      intro d hd
      rw [collapseRun] at hd
      split at hd
      · exact ih d hd
      · next hnst =>
        rw [List.head?_cons, Option.some_inj] at hd
        rw [← hd]
        simpa using hnst

theorem collapseRun_chain :
    ∀ (l : List Char) (b : Bool),
      List.Chain' (fun a b => ¬(a = ' ' ∧ b = ' ')) (collapseRun b l) := by
  intro l
  induction l with
  | nil => intro b; rw [collapseRun]; exact List.chain'_nil
  | cons a rest ih =>
      intro b
      rw [collapseRun]
      split
      · split
        · exact ih true
        · rw [List.chain'_cons']
          refine ⟨?_, ih true⟩
          intro y hy hcon
          have := collapseRun_true_head rest y hy
          simp only [Bool.or_eq_true, decide_eq_true_eq] at this
          exact this (Or.inl hcon.2)
      · next hnst =>
        rw [List.chain'_cons']
        refine ⟨?_, ih false⟩
        intro y hy hcon
        rw [hcon.1] at hnst
        simp at hnst

theorem collapseRun_false_eq_self (l : List Char)
    (h1 : ∀ c ∈ l, c ≠ '\t')
    (h2 : List.Chain' (fun a b => ¬(a = ' ' ∧ b = ' ')) l) :
    collapseRun false l = l := by
  induction l with
  | nil => rfl
  | cons a rest ih =>
      have h1rest : ∀ c ∈ rest, c ≠ '\t' := fun c hc => h1 c (List.mem_cons_of_mem a hc)
      by_cases hsp : a = ' '
      · rw [collapseRun, if_pos (by rw [hsp]; simp)]
        have hskip : collapseRun true rest = collapseRun false rest := by
          cases rest with
          | nil => rfl
          | cons d r =>
              have hd : ¬(d = ' ' || d = '\t') = true := by
                have hdt : d ≠ '\t' := h1rest d (List.mem_cons_self d r)
                have hds : d ≠ ' ' := by
                  intro hds
                  have := (List.chain'_cons.mp h2).1
                  exact this ⟨hsp, hds⟩
                simp [hdt, hds]
              rw [collapseRun, if_neg (by simpa using hd),
                collapseRun, if_neg (by simpa using hd)]
        rw [hskip, ih h1rest h2.tail, hsp]
        simp
      · have hat : a ≠ '\t' := h1 a (List.mem_cons_self a rest)
        rw [collapseRun, if_neg (by simp [hsp, hat]), ih h1rest h2.tail]

theorem collapseSpaceTab_jsTrim (s : List Char) :
    collapseSpaceTab (jsTrim (collapseSpaceTab s)) = jsTrim (collapseSpaceTab s) := by
  unfold collapseSpaceTab
  refine collapseRun_false_eq_self _ ?_ ?_
  · intro c hc
    exact collapseRun_no_tab s false c (mem_jsTrim_imp _ c hc)
  · exact List.Chain'.infix (collapseRun_chain s false) (jsTrim_infixOfSelf _)

theorem normalizeLine_idem (s : List Char) :
    normalizeLine (normalizeLine s) = normalizeLine s := by
  show jsTrim (collapseSpaceTab (jsTrim (collapseSpaceTab s))) = normalizeLine s
  rw [collapseSpaceTab_jsTrim, jsTrim_idem]
  rfl

/-! Joining lines with `"\n"` and splitting again. -/

theorem intercalateNL_nil : List.intercalate ['\n'] ([] : List (List Char)) = [] := by
  simp [List.intercalate]

theorem intercalateNL_single (l : List Char) : List.intercalate ['\n'] [l] = l := by
  simp [List.intercalate]

theorem intercalateNL_cons (l : List Char) (ls : List (List Char)) (h : ls ≠ []) :
    List.intercalate ['\n'] (l :: ls) = l ++ '\n' :: List.intercalate ['\n'] ls := by
  cases ls with
  | nil => exact absurd rfl h
  | cons m ms => simp [List.intercalate, List.intersperse]

theorem intercalateNL_concat (ls : List (List Char)) (l : List Char) (h : ls ≠ []) :
    List.intercalate ['\n'] (ls ++ [l]) =
      List.intercalate ['\n'] ls ++ '\n' :: l := by
  induction ls with
  | nil => exact absurd rfl h
  | cons m ms ih =>
      cases hms : ms with
      | nil => simp [intercalateNL_cons, intercalateNL_single]
      | cons m' ms' =>
          subst hms
          rw [List.cons_append,
            intercalateNL_cons m ((m' :: ms') ++ [l]) (by simp),
            intercalateNL_cons m (m' :: ms') (List.cons_ne_nil _ _),
            ih (List.cons_ne_nil _ _)]
          simp

theorem splitOnChar_append_sep (l s : List Char) (h : '\n' ∉ l) :
    splitOnChar '\n' (l ++ '\n' :: s) = l :: splitOnChar '\n' s := by
  induction l with
  | nil => simp [splitOnChar]
  | cons c l' ih =>
      have hc : c ≠ '\n' := fun hcc => h (by rw [← hcc]; exact List.mem_cons_self c l')
      have hl' : '\n' ∉ l' := fun hm => h (List.mem_cons_of_mem c hm)
      rw [List.cons_append, splitOnChar, if_neg hc, ih hl']

theorem splitOnChar_intercalateNL (ls : List (List Char)) (hne : ls ≠ [])
    (h : ∀ l ∈ ls, '\n' ∉ l) :
    splitOnChar '\n' (List.intercalate ['\n'] ls) = ls := by
  induction ls with
  | nil => exact absurd rfl hne
  | cons l ms ih =>
      cases hms : ms with
      | nil =>
          rw [intercalateNL_single]
          exact splitOnChar_eq_self_of_not_mem '\n' l (h l (List.mem_cons_self l ms))
      | cons m ms' =>
          subst hms
          rw [intercalateNL_cons l (m :: ms') (List.cons_ne_nil _ _),
            splitOnChar_append_sep l _ (h l (List.mem_cons_self l _)),
            ih (List.cons_ne_nil _ _) (fun x hx => h x (List.mem_cons_of_mem l hx))]

theorem not_mem_splitOnChar_part (sep : Char) (s part : List Char)
    (hpart : part ∈ splitOnChar sep s) : sep ∉ part := by
  induction s generalizing part with
  | nil =>
      simp only [splitOnChar, List.mem_singleton] at hpart
      rw [hpart]
      exact List.not_mem_nil sep
  | cons a rest ih =>
      rw [splitOnChar] at hpart
      split at hpart
      · rcases List.mem_cons.mp hpart with heq | hmem
        · rw [heq]; exact List.not_mem_nil sep
        · exact ih part hmem
      · next hne =>
        split at hpart
        · next hnil => exact absurd hnil (splitOnChar_ne_nil sep rest)
        · next hd tl hsplit =>
          rcases List.mem_cons.mp hpart with heq | hmem
          · rw [heq]
            intro hmm
            rcases List.mem_cons.mp hmm with h1 | h2
            · exact hne h1.symm
            · exact ih hd (by rw [hsplit]; exact List.mem_cons_self hd tl) h2
          · exact ih part (by rw [hsplit]; exact List.mem_cons_of_mem hd hmem)

/-! Trimming a join of already-trimmed lines only removes the leading and
trailing blank lines. -/

theorem trimmed_dropWhile (l : List Char) (h : jsTrim l = l) :
    l.dropWhile isWs = l := by
  conv_lhs => rw [← h]
  rw [jsTrim_dropWhile, h]

theorem trimmed_rdropWhile (l : List Char) (h : jsTrim l = l) :
    List.rdropWhile isWs l = l := by
  calc List.rdropWhile isWs l
      = List.rdropWhile isWs (l.dropWhile isWs) := by rw [trimmed_dropWhile l h]
    _ = jsTrim l := (jsTrim_eq_rdropWhile l).symm
    _ = l := h

theorem trimmed_cons_head (c : Char) (rest : List Char)
    (h : jsTrim (c :: rest) = c :: rest) : isWs c = false := by
  have hd := trimmed_dropWhile _ h
  by_cases hw : isWs c
  · rw [List.dropWhile_cons_of_pos hw] at hd
    have hlen := congrArg List.length hd
    have hle := length_dropWhile_le' isWs rest
    simp only [List.length_cons] at hlen
    omega
  · simpa using hw

theorem dropEmpties_cons_nil (ms : List (List Char)) :
    List.dropWhile (· = []) ([] :: ms) = List.dropWhile (· = []) ms := rfl

theorem dropEmpties_cons_ne (l : List Char) (ms : List (List Char)) (h : l ≠ []) :
    List.dropWhile (· = []) (l :: ms) = l :: ms := by
  simp [List.dropWhile_cons, h]

theorem rdropEmpties_concat_nil (ls : List (List Char)) :
    List.rdropWhile (· = []) (ls ++ [[]]) = List.rdropWhile (· = []) ls := by
  apply List.rdropWhile_concat_pos
  simp

theorem rdropEmpties_concat_ne (ls : List (List Char)) (l : List Char) (h : l ≠ []) :
    List.rdropWhile (· = []) (ls ++ [l]) = ls ++ [l] := by
  apply List.rdropWhile_concat_neg
  simp [h]

theorem rdropWs_concat_nl (x : List Char) :
    List.rdropWhile isWs (x ++ ['\n']) = List.rdropWhile isWs x := by
  apply List.rdropWhile_concat_pos
  rfl

theorem dropWhile_ws_intercalateNL (ls : List (List Char))
    (h : ∀ l ∈ ls, jsTrim l = l) :
    (List.intercalate ['\n'] ls).dropWhile isWs =
      List.intercalate ['\n'] (ls.dropWhile (· = [])) := by
  induction ls with
  | nil => simp [intercalateNL_nil]
  | cons l ms ih =>
      by_cases hl : l = []
      · subst hl
        cases ms with
        | nil => simp [intercalateNL_single, intercalateNL_nil]
        | cons m ms' =>
            rw [intercalateNL_cons [] (m :: ms') (List.cons_ne_nil _ _),
              List.nil_append,
              List.dropWhile_cons_of_pos (show isWs '\n' = true from rfl),
              ih (fun x hx => h x (List.mem_cons_of_mem _ hx)),
              dropEmpties_cons_nil]
      · have htr := h l (List.mem_cons_self l ms)
        rw [dropEmpties_cons_ne l ms hl]
        cases hlc : l with
        | nil => exact absurd hlc hl
        | cons c rest =>
            have hc : isWs c = false := trimmed_cons_head c rest (hlc ▸ htr)
            cases ms with
            | nil =>
                rw [intercalateNL_single,
                  List.dropWhile_cons_of_neg (by simp [hc])]
            | cons m ms' =>
                rw [intercalateNL_cons (c :: rest) (m :: ms') (List.cons_ne_nil _ _),
                  List.cons_append,
                  List.dropWhile_cons_of_neg (by simp [hc])]

theorem rdropWhile_append_of_rdropWhile_eq_self (p : Char → Bool)
    (x y : List Char) (hy : y ≠ []) (hself : List.rdropWhile p y = y) :
    List.rdropWhile p (x ++ y) = x ++ y := by
  rw [List.rdropWhile_eq_self_iff] at hself ⊢
  intro hl
  rw [List.getLast_append' x y hy]
  exact hself hy

theorem rdropWhile_ws_intercalateNL (ls : List (List Char))
    (h : ∀ l ∈ ls, jsTrim l = l) :
    List.rdropWhile isWs (List.intercalate ['\n'] ls) =
      List.intercalate ['\n'] (List.rdropWhile (· = []) ls) := by
  induction ls using List.reverseRecOn with
  | nil => simp [intercalateNL_nil, List.rdropWhile]
  | append_singleton ms l ih =>
      by_cases hl : l = []
      · subst hl
        cases hms : ms with
        | nil => simp [intercalateNL_single, intercalateNL_nil, List.rdropWhile]
        | cons m ms' =>
            rw [← hms, intercalateNL_concat ms [] (by rw [hms]; exact List.cons_ne_nil _ _)]
            have h2 : List.intercalate ['\n'] ms ++ '\n' :: ([] : List Char) =
                List.intercalate ['\n'] ms ++ ['\n'] := rfl
            rw [h2, rdropWs_concat_nl,
              ih (fun x hx => h x (List.mem_append_left _ hx)),
              rdropEmpties_concat_nil]
      · have htr := h l (List.mem_append_right _ (List.mem_cons_self l []))
        have hself : List.rdropWhile isWs l = l := trimmed_rdropWhile l htr
        cases hms : ms with
        | nil =>
            have hr : List.rdropWhile (· = []) [l] = [l] := by
              have := rdropEmpties_concat_ne [] l hl
              simpa using this
            rw [List.nil_append, intercalateNL_single, hr, intercalateNL_single]
            exact hself
        | cons m ms' =>
            rw [← hms, intercalateNL_concat ms l (by rw [hms]; exact List.cons_ne_nil _ _),
              rdropEmpties_concat_ne ms l hl,
              intercalateNL_concat ms l (by rw [hms]; exact List.cons_ne_nil _ _)]
            refine rdropWhile_append_of_rdropWhile_eq_self isWs _ ('\n' :: l)
              (List.cons_ne_nil _ _) ?_
            rw [List.rdropWhile_eq_self_iff]
            intro hne
            rw [List.rdropWhile_eq_self_iff] at hself
            have hgl : ('\n' :: l).getLast hne = l.getLast hl := List.getLast_cons hl
            rw [hgl]
            exact hself hl

theorem dropWhile_rdropWhile_dropWhile {α : Type _} (p : α → Bool) (l : List α) :
    (List.rdropWhile p (l.dropWhile p)).dropWhile p =
      List.rdropWhile p (l.dropWhile p) := by
  have hAself : (l.dropWhile p).dropWhile p = l.dropWhile p :=
    List.dropWhile_idempotent _ _
  obtain ⟨t, ht⟩ := List.rdropWhile_prefix p (l.dropWhile p)
  cases hr : List.rdropWhile p (l.dropWhile p) with
  | nil => simp
  | cons a r =>
      have hmem : l.dropWhile p = a :: (r ++ t) := by
        rw [← ht, hr]
        simp
      have hna : ¬p a = true := by
        intro hpa
        rw [hmem, List.dropWhile_cons_of_pos hpa] at hAself
        have hlen := congrArg List.length hAself
        have hle := length_dropWhile_le' p (r ++ t)
        simp only [List.length_cons] at hlen
        omega
      rw [List.dropWhile_cons_of_neg hna]

theorem mem_intercalateNL_imp (ls : List (List Char)) (c : Char)
    (hc : c ∈ List.intercalate ['\n'] ls) : c = '\n' ∨ ∃ l ∈ ls, c ∈ l := by
  induction ls with
  | nil => rw [intercalateNL_nil] at hc; exact absurd hc (List.not_mem_nil c)
  | cons l ms ih =>
      cases ms with
      | nil =>
          rw [intercalateNL_single] at hc
          exact Or.inr ⟨l, List.mem_cons_self l [], hc⟩
      | cons m ms' =>
          rw [intercalateNL_cons l (m :: ms') (List.cons_ne_nil _ _)] at hc
          rcases List.mem_append.mp hc with h1 | h1
          · exact Or.inr ⟨l, List.mem_cons_self l _, h1⟩
          · rcases List.mem_cons.mp h1 with h2 | h2
            · exact Or.inl h2
            · rcases ih h2 with h3 | ⟨l', hl', hcl'⟩
              · exact Or.inl h3
              · exact Or.inr ⟨l', List.mem_cons_of_mem l hl', hcl'⟩

theorem map_eq_self_of_fixed {α : Type _} (f : α → α) (l : List α)
    (h : ∀ a ∈ l, f a = a) : l.map f = l := by
  induction l with
  | nil => rfl
  | cons a rest ih =>
      rw [List.map_cons, h a (List.mem_cons_self a rest),
        ih (fun x hx => h x (List.mem_cons_of_mem a hx))]

/-- Trimming a join of trimmed lines drops exactly the leading and trailing
blank lines. -/
theorem jsTrim_intercalateNL (ls : List (List Char))
    (h : ∀ l ∈ ls, jsTrim l = l) :
    jsTrim (List.intercalate ['\n'] ls) =
      List.intercalate ['\n'] (List.rdropWhile (· = []) (ls.dropWhile (· = []))) := by
  rw [jsTrim_eq_rdropWhile, dropWhile_ws_intercalateNL ls h,
    rdropWhile_ws_intercalateNL _ (fun l hl => h l (mem_of_mem_dropWhile _ ls l hl))]

/-- **C5.** `normalizeText` is idempotent. -/
theorem normalizeText_idempotent (x : List Char) :
    normalizeText (normalizeText x) = normalizeText x := by
  have hshow : ∀ s : List Char, normalizeText s =
      jsTrim (List.intercalate ['\n']
        ((splitOnChar '\n' (replaceCR (stripCRLF s))).map normalizeLine)) :=
    fun s => rfl
  set ls := (splitOnChar '\n' (replaceCR (stripCRLF x))).map normalizeLine with hls
  have hTrimmed : ∀ l ∈ ls, jsTrim l = l := by
    intro l hl
    obtain ⟨part, _, hpart⟩ := List.mem_map.mp hl
    rw [← hpart]
    exact jsTrim_idem _
  have hNoNL : ∀ l ∈ ls, '\n' ∉ l := by
    intro l hl hnl
    obtain ⟨part, hp, hpart⟩ := List.mem_map.mp hl
    rw [← hpart] at hnl
    rcases mem_normalizeLine_imp part '\n' hnl with h1 | h1
    · exact absurd h1 (by decide)
    · exact not_mem_splitOnChar_part '\n' _ part hp h1
  have hFix : ∀ l ∈ ls, normalizeLine l = l := by
    intro l hl
    obtain ⟨part, _, hpart⟩ := List.mem_map.mp hl
    rw [← hpart]
    exact normalizeLine_idem part
  set core := List.rdropWhile (· = []) (ls.dropWhile (· = [])) with hcore
  have hy : normalizeText x = List.intercalate ['\n'] core := by
    rw [hshow x, ← hls, jsTrim_intercalateNL ls hTrimmed]
  have hcoreSub : ∀ l ∈ core, l ∈ ls := by
    intro l hl
    exact mem_of_mem_dropWhile _ ls l
      ((List.rdropWhile_prefix _ _).subset hl)
  have hNoCR : '\r' ∉ normalizeText x := by
    rw [hy]
    intro hr
    rcases mem_intercalateNL_imp core '\r' hr with h1 | ⟨l, hl, hcl⟩
    · exact absurd h1 (by decide)
    · obtain ⟨part, hp, hpart⟩ := List.mem_map.mp (hcoreSub l hl)
      rw [← hpart] at hcl
      rcases mem_normalizeLine_imp part '\r' hcl with h2 | h2
      · exact absurd h2 (by decide)
      · exact not_mem_replaceCR _ (mem_of_mem_splitOnChar '\n' _ part '\r' hp h2)
  rw [hshow (normalizeText x), stripCRLF_eq_self _ hNoCR, replaceCR_eq_self _ hNoCR]
  cases hcs : core with
  | nil =>
      rw [hy, hcs, intercalateNL_nil]
      rfl
  | cons c cs =>
      rw [hy]
      rw [splitOnChar_intercalateNL core (by rw [hcs]; exact List.cons_ne_nil _ _)
        (fun l hl => hNoNL l (hcoreSub l hl))]
      rw [map_eq_self_of_fixed normalizeLine core
        (fun l hl => hFix l (hcoreSub l hl))]
      rw [jsTrim_intercalateNL core (fun l hl => hTrimmed l (hcoreSub l hl))]
      have hdw : core.dropWhile (· = []) = core := by
        rw [hcore]
        exact dropWhile_rdropWhile_dropWhile _ ls
      rw [hdw, hcore, List.rdropWhile_idempotent]

/-! ## Claim C1: coverage (no content loss or duplication) -/

theorem nwsJoin_nil : nwsJoin [] = [] := rfl

theorem nwsJoin_cons (l : List Char) (ls : List (List Char)) :
    nwsJoin (l :: ls) = nws l ++ nwsJoin ls := by
  simp [nwsJoin]

theorem nwsJoin_append (a b : List (List Char)) :
    nwsJoin (a ++ b) = nwsJoin a ++ nwsJoin b := by
  simp [nwsJoin]

theorem nws_cons (c : Char) (s : List Char) :
    nws (c :: s) = (if isWs c then [] else [c]) ++ nws s := by
  simp only [nws, List.filter_cons]
  by_cases h : isWs c <;> simp [h]

theorem nws_cons_ws (c : Char) (s : List Char) (h : isWs c = true) :
    nws (c :: s) = nws s := by
  rw [nws_cons, h]
  simp

theorem nws_cons_not_ws (c : Char) (s : List Char) (h : isWs c = false) :
    nws (c :: s) = c :: nws s := by
  rw [nws_cons, h]
  simp

theorem nws_flatten (ls : List (List Char)) : nws (List.flatten ls) = nwsJoin ls := by
  induction ls with
  | nil => rfl
  | cons l ms ih => rw [List.flatten_cons, nws_append, nwsJoin_cons, ih]

theorem nwsJoin_consHead (c : Char) (parts : List (List Char)) :
    nwsJoin (consHead c parts) = nws [c] ++ nwsJoin parts := by
  cases parts with
  | nil => simp [consHead, nwsJoin_cons, nwsJoin_nil]
  | cons h t =>
      rw [consHead, nwsJoin_cons, nwsJoin_cons,
        show (c :: h) = [c] ++ h from rfl]
      unfold nws
      rw [List.filter_append, List.append_assoc]

theorem nws_singleton_append (c : Char) (s : List Char) :
    nws [c] ++ nws s = nws (c :: s) :=
  (nws_append [c] s).symm

theorem nwsJoin_splitParaGo (s : List Char) :
    ∀ b, nwsJoin (splitParaGo b s) = nws s := by
  induction s with
  | nil => intro b; rfl
  | cons c rest ih =>
      intro b
      have hnl : isWs '\n' = true := rfl
      rw [splitParaGo.eq_def]
      dsimp only []
      split
      · split
        · next hc => rw [ih true, hc, nws_cons_ws _ _ hnl]
        · rw [nwsJoin_consHead, ih false, nws_singleton_append]
      · split
        · next hc =>
          subst hc
          cases rest with
          | nil => decide
          | cons d rest' =>
              dsimp only []
              split
              · next hd =>
                subst hd
                rw [nwsJoin_cons, ih true]
                show nws [] ++ nws ('\n' :: rest') = nws ('\n' :: '\n' :: rest')
                rw [show nws ([] : List Char) = [] from rfl, List.nil_append,
                  nws_cons_ws '\n' ('\n' :: rest') hnl]
              · rw [nwsJoin_consHead, ih false, nws_singleton_append]
        · rw [nwsJoin_consHead, ih false, nws_singleton_append]

theorem nwsJoin_splitPara (s : List Char) : nwsJoin (splitPara s) = nws s :=
  nwsJoin_splitParaGo s false

theorem nwsJoin_splitOnChar (sep : Char) (hsep : isWs sep = true) (s : List Char) :
    nwsJoin (splitOnChar sep s) = nws s := by
  induction s with
  | nil => rfl
  | cons c rest ih =>
      rw [splitOnChar]
      split
      · next hc =>
        rw [nwsJoin_cons, hc, nws_cons_ws _ _ hsep]
        simpa using ih
      · cases hsp : splitOnChar sep rest with
        | nil => exact absurd hsp (splitOnChar_ne_nil sep rest)
        | cons h t =>
            rw [nwsJoin_cons, nws_cons, nws_cons]
            have hrest := ih
            rw [hsp, nwsJoin_cons] at hrest
            simp only [List.append_assoc]
            rw [hrest]

theorem nwsJoin_emitSentence (s : List Char) : nwsJoin (emitSentence s) = nws s := by
  unfold emitSentence
  dsimp only []
  split
  · next h => rw [nwsJoin_nil, nws_eq_nil_of_jsTrim_eq_nil s h]
  · rw [nwsJoin_cons, nwsJoin_nil, nws_jsTrim, List.append_nil]

theorem nwsJoin_splitSentencesGo (s : List Char) :
    ∀ state : Option (List Char),
      nwsJoin (splitSentencesGo state s) =
        (match state with | none => [] | some acc => nws acc) ++ nws s := by
  induction s with
  | nil =>
      intro state
      cases state with
      | none => rfl
      | some acc =>
          rw [splitSentencesGo.eq_def]
          dsimp only []
          rw [nwsJoin_emitSentence]
          simp [nws]
  | cons c rest ih =>
      intro state
      cases state with
      | none =>
          rw [splitSentencesGo.eq_def]
          dsimp only []
          split
          · next hw =>
            rw [ih none, nws_cons_ws _ _ hw]
          · split
            · next hb =>
              have hcp : isWs c = false := by
                have hp := (Bool.and_eq_true _ _ |>.mp hb).1
                revert hp
                unfold isPunct isWs
                intro hp
                rcases Bool.or_eq_true _ _ |>.mp hp with h | h
                · rcases Bool.or_eq_true _ _ |>.mp h with h' | h'
                  · simp only [decide_eq_true_eq] at h'
                    rw [h']; rfl
                  · simp only [decide_eq_true_eq] at h'
                    rw [h']; rfl
                · simp only [decide_eq_true_eq] at h
                  rw [h]; rfl
              rw [nwsJoin_append, nwsJoin_emitSentence, ih none,
                List.nil_append, nws_singleton_append, List.nil_append]
            · rw [ih (some [c]), List.nil_append, nws_singleton_append]
      | some acc =>
          rw [splitSentencesGo.eq_def]
          dsimp only []
          split
          · rw [nwsJoin_append, nwsJoin_emitSentence, ih none]
            dsimp only []
            rw [List.nil_append, nws_append, List.append_assoc, nws_singleton_append]
          · rw [ih (some (acc ++ [c]))]
            dsimp only []
            rw [nws_append, List.append_assoc, nws_singleton_append]

theorem nwsJoin_splitSentences (s : List Char) :
    nwsJoin (splitSentences s) = nws s := by
  rw [splitSentences, nwsJoin_splitSentencesGo]
  rfl

theorem nwsJoin_flatMap (f : List Char → List (List Char)) (us : List (List Char))
    (hf : ∀ u, nwsJoin (f u) = nws u) :
    nwsJoin (us.flatMap f) = nwsJoin us := by
  induction us with
  | nil => rfl
  | cons u us' ih =>
      rw [List.flatMap_cons, nwsJoin_append, hf u, nwsJoin_cons, ih]

theorem nwsJoin_trim_filter (us : List (List Char)) :
    nwsJoin ((us.map jsTrim).filter (· ≠ [])) = nwsJoin us := by
  induction us with
  | nil => rfl
  | cons u us' ih =>
      rw [List.map_cons, List.filter_cons]
      split
      · rw [nwsJoin_cons, nws_jsTrim, ih, nwsJoin_cons]
      · next h =>
        have hnil : jsTrim u = [] := by simpa using h
        rw [ih, nwsJoin_cons, nws_eq_nil_of_jsTrim_eq_nil u hnil, List.nil_append]

theorem nwsJoin_splitUnits (text : List Char) (rules : ChunkingConfig) :
    nwsJoin (splitUnits text rules) = nws text := by
  unfold splitUnits
  rw [nwsJoin_trim_filter]
  have h1 : ∀ u0 : List (List Char),
      nwsJoin (if rules.splitOnParagraphs then u0.flatMap splitPara else u0) =
        nwsJoin u0 := by
    intro u0
    split
    · exact nwsJoin_flatMap splitPara u0 nwsJoin_splitPara
    · rfl
  have h2 : ∀ u1 : List (List Char),
      nwsJoin (if rules.splitOnLines then u1.flatMap (splitOnChar '\n') else u1) =
        nwsJoin u1 := by
    intro u1
    split
    · exact nwsJoin_flatMap _ u1 (nwsJoin_splitOnChar '\n' rfl)
    · rfl
  have h3 : ∀ u2 : List (List Char),
      nwsJoin (if rules.splitOnSentences then u2.flatMap splitSentences else u2) =
        nwsJoin u2 := by
    intro u2
    split
    · exact nwsJoin_flatMap _ u2 nwsJoin_splitSentences
    · rfl
  rw [h3, h2, h1, nwsJoin_cons, nwsJoin_nil, List.append_nil]

theorem nwsJoin_flushBuffer (buffer : List Char) :
    nwsJoin (flushBuffer buffer) = nws buffer := by
  unfold flushBuffer
  split
  · next h => rw [nwsJoin_nil, nws_eq_nil_of_jsTrim_eq_nil buffer h]
  · rw [nwsJoin_cons, nwsJoin_nil, nws_jsTrim, List.append_nil]

theorem flatten_splitByLengthGo (limit : Nat) (l : List Char) :
    ∀ (k : Nat) (accRev : List Char),
      List.flatten (splitByLengthGo limit k accRev l) = accRev.reverse ++ l := by
  induction l with
  | nil =>
      intro k accRev
      rw [splitByLengthGo]
      split
      · next h => rw [h]; rfl
      · simp
  | cons c rest ih =>
      intro k accRev
      cases k with
      | zero =>
          rw [splitByLengthGo, List.flatten_cons, ih (limit - 1) [c]]
          simp
      | succ k' =>
          rw [splitByLengthGo, ih k' (c :: accRev)]
          simp

theorem nwsJoin_splitByLength (u : List Char) (limit : Nat) :
    nwsJoin (splitByLength u limit) = nws u := by
  rw [← nws_flatten]
  unfold splitByLength
  split
  · simp
  · rw [flatten_splitByLengthGo limit u limit []]
    rfl

theorem nws_sep (cur : List Char) :
    nws (if cur = [] then [] else [' ']) = [] := by
  split <;> rfl

theorem nwsJoin_chunkByRulesGo (targetChars hardLimit : Nat) :
    ∀ (us : List (List Char)) (current : List Char),
      nwsJoin (chunkByRulesGo targetChars hardLimit us current) =
        nws current ++ nwsJoin us := by
  intro us
  induction us with
  | nil =>
      intro current
      rw [chunkByRulesGo, nwsJoin_flushBuffer, nwsJoin_nil, List.append_nil]
  | cons u us' ih =>
      intro current
      rw [chunkByRulesGo]
      split
      · rw [nwsJoin_append, nwsJoin_append, nwsJoin_flushBuffer, nwsJoin_trim_filter,
          nwsJoin_splitByLength, ih [], nwsJoin_cons]
        simp [nws]
      · dsimp only []
        split <;> split
        · rw [ih, List.append_nil, nws_append, nwsJoin_cons, List.append_assoc]
        · rw [nwsJoin_append, nwsJoin_flushBuffer, ih u, nwsJoin_cons]
        · have hsp : nws [' '] = [] := rfl
          rw [ih, nws_append, nws_append, hsp, List.append_nil, nwsJoin_cons,
            List.append_assoc]
        · rw [nwsJoin_append, nwsJoin_flushBuffer, ih u, nwsJoin_cons]

theorem nwsJoin_chunkByRules (text : List Char) (rules : ChunkingConfig) :
    nwsJoin (chunkByRules text rules) = nws text := by
  rw [chunkByRules, nwsJoin_chunkByRulesGo]
  rw [nwsJoin_splitUnits]
  rfl

/-- **C1 (amended).** In Custom mode with a blank heading delimiter (no
heading detection), concatenating the chunks of `chunkText` — whitespace
ignored — reproduces every non-whitespace character of the input exactly
once, in order.  When heading detection is active (Preset mode, or Custom
mode with a non-blank delimiter), the marker characters of matched heading
lines are dropped, so full coverage does not hold. -/
theorem chunkText_coverage_custom_blank_delim (E : RegexEngine) (text : List Char)
    (config : ChunkingConfig) (hmode : config.mode = .custom)
    (hdelim : jsTrim config.headingDelimiter = []) :
    nwsJoin (chunkText E text config) = nws text := by
  rw [chunkText]
  split
  · next h => rw [nwsJoin_nil, nws_eq_nil_of_jsTrim_eq_nil text h]
  · rw [hmode]
    dsimp only []
    rw [if_neg (by simp [hdelim])]
    exact nwsJoin_chunkByRules text config

/-- Witness for C1 (amended) at a concrete input. -/
theorem chunkText_coverage_custom_blank_delim_witness :
    nwsJoin (chunkText noRegex "One two.\n\nThree four. Five!".data
        { mode := .custom, targetChars := 200, hardLimit := 300,
          splitOnParagraphs := true, splitOnLines := true, splitOnSentences := true,
          headingDelimiter := [] }) =
      nws "One two.\n\nThree four. Five!".data :=
  chunkText_coverage_custom_blank_delim noRegex _ _ rfl (by decide)

/-- **C1 is false as stated**: for the already-normalized input `"# Title"`
and the Preset config, the only chunk is `"Title"` — the non-whitespace `#`
of the input is lost. -/
theorem chunkText_coverage_counterexample :
    normalizeText "# Title".data = "# Title".data ∧
      nwsJoin (chunkText noRegex "# Title".data VALEON_CHUNKING_PRESET) ≠
        nws "# Title".data := by
  constructor
  · decide
  · decide

end Valeon
